import Mathlib

/-!
Verification development for the OmniSync replicated-sequence library
(RGA CRDT core): a shallow embedding of the C++ headers under
`include/omnisync/` (crdt_atom.hpp, lamport_clock.hpp, vector_clock.hpp,
sequence.hpp, gc_coordinator.hpp, binary_packer.hpp, vle_encoding.hpp),
together with theorems settling the spec claims.

Modelling conventions:
* `uint64_t` values are `Nat`; truncation to 64 bits is written `% 2^64`
  (or per-byte masks) exactly where the C++ semantics truncates.
* `std::unordered_map` is modelled as an association list updated at the
  first occurrence of a key; this is a deterministic refinement of the
  hash map (whose iteration order is unspecified) and agrees with it on
  lookup/update/erase semantics whenever keys are unique, which every
  reachable state maintains.
* `std::list<Atom>` with its id index is modelled as `List Atom`; the
  index lookup `atom_index.find(id)` is the position of the first atom
  with that id (positions and the index domain coincide with the list in
  every reachable state, since the code maintains them in lockstep).
* The steady-clock timestamps of the GC coordinator are explicit `Nat`
  millisecond parameters.
-/

namespace OmniSync

/-- `OpID` from crdt_atom.hpp: `(client_id, clock)` with lexicographic
order on `(clock, client_id)`. -/
structure OpID where
  client_id : Nat
  clock : Nat
deriving DecidableEq, Repr

/-- `OpID::operator<` from crdt_atom.hpp. -/
def OpID.lt (a b : OpID) : Bool :=
  if a.clock ≠ b.clock then a.clock < b.clock else a.client_id < b.client_id

/-- The reserved sentinel identifier `(0,0)`. -/
def sentinelId : OpID := ⟨0, 0⟩

/-- `Atom` from crdt_atom.hpp. `content` is the byte value of the C++
`char` payload. -/
structure Atom where
  id : OpID
  origin : OpID
  content : Nat
  is_deleted : Bool
deriving DecidableEq, Repr

/-- The synthetic sentinel atom created by the `Sequence` constructor. -/
def sentinelAtom : Atom := ⟨sentinelId, sentinelId, 0, false⟩

/-- The visibility test `!is_deleted && content != 0` used by the walk
loops and `toString`. -/
def isVisible (a : Atom) : Bool := !a.is_deleted && a.content != 0

/-! ### Vector clock (vector_clock.hpp) -/

/-- `VectorClock` from vector_clock.hpp: the `unordered_map` is an
association list (first occurrence of a key is the entry). -/
structure VectorClock where
  entries : List (Nat × Nat)
  my_id : Nat
deriving DecidableEq, Repr

/-- `VectorClock(client_id)` constructor: `clock[my_id] = 0`. -/
def VectorClock.init (client_id : Nat) : VectorClock :=
  ⟨[(client_id, 0)], client_id⟩

/-- `VectorClock()` default constructor. -/
def VectorClock.empty : VectorClock := ⟨[], 0⟩

/-- `VectorClock::get`: entry value or 0 when absent. -/
def vcGet (vc : VectorClock) (client_id : Nat) : Nat :=
  match vc.entries.find? (fun e => e.1 = client_id) with
  | some e => e.2
  | none => 0

/-- `clock[k] = max(clock[k], t)` on the entry list (`operator[]`
default-inserts 0 for a missing key, so an absent key becomes `t`). -/
def vcUpdateEntries : List (Nat × Nat) → Nat → Nat → List (Nat × Nat)
  | [], k, t => [(k, t)]
  | e :: es, k, t =>
    if e.1 = k then (k, max e.2 t) :: es else e :: vcUpdateEntries es k t

/-- `VectorClock::update(client_id, time)`. -/
def vcUpdate (vc : VectorClock) (client_id t : Nat) : VectorClock :=
  { vc with entries := vcUpdateEntries vc.entries client_id t }

/-- `clock[my_id]++` on the entry list (missing key default-inserts 0,
then increments to 1). -/
def vcTickEntries : List (Nat × Nat) → Nat → List (Nat × Nat)
  | [], k => [(k, 1)]
  | e :: es, k =>
    if e.1 = k then (k, e.2 + 1) :: es else e :: vcTickEntries es k

/-- `VectorClock::tick()`. -/
def vcTick (vc : VectorClock) : VectorClock :=
  { vc with entries := vcTickEntries vc.entries vc.my_id }

/-- `VectorClock::merge(other)`: pointwise max over the other clock's
entries, in iteration order. -/
def vcMerge (vc other : VectorClock) : VectorClock :=
  { vc with
    entries := other.entries.foldl
      (fun acc e => vcUpdateEntries acc e.1 e.2) vc.entries }

/-- The `(this_less, this_greater)` flag pair of `VectorClock::compare`,
collected over the union of keys of both clocks. -/
def vcFlags (vc other : VectorClock) : Bool × Bool :=
  let all_ids := vc.entries.map Prod.fst ++ other.entries.map Prod.fst
  (all_ids.any (fun k => vcGet vc k < vcGet other k),
    all_ids.any (fun k => vcGet other k < vcGet vc k))

/-- `VectorClock::compare(other)` from vector_clock.hpp: returns `-1`
(before), `1` (after), or `0` (both the equal and the concurrent
case). -/
def vcCompare (vc other : VectorClock) : Int :=
  let f := vcFlags vc other
  if f.1 = true ∧ f.2 = false then -1
  else if f.1 = false ∧ f.2 = true then 1
  else if f.1 = false ∧ f.2 = false then 0
  else 0

/-- Key-insertion loop of the map build in `computeMinimum`: a key is
added only when not already present (first occurrence kept). -/
def dedupGo : List Nat → List Nat → List Nat
  | [], _ => []
  | k :: ks, seen =>
    if k ∈ seen then dedupGo ks seen else k :: dedupGo ks (k :: seen)

/-- Duplicate-free key list, keeping first occurrences (the map-keyed
deduplication performed by `computeMinimum`). -/
def dedupKeys (l : List Nat) : List Nat := dedupGo l []

/-- `VectorClock::computeMinimum(clocks)` from vector_clock.hpp: entries
start at `UINT64_MAX` and take the min of `get` over all clocks; the
result copies `clocks[0]` and replaces its map. -/
def computeMinimum (clocks : List VectorClock) : VectorClock :=
  match clocks with
  | [] => VectorClock.empty
  | first :: _ =>
    let keys := dedupKeys (clocks.flatMap (fun vc => vc.entries.map Prod.fst))
    let min_times := keys.map (fun k =>
      (k, clocks.foldl (fun m vc => min m (vcGet vc k)) (2 ^ 64 - 1)))
    { first with entries := min_times }

/-! ### Sequence engine (sequence.hpp) -/

/-- The `Sequence` state: primary storage, causal bookkeeping, buffers,
configuration (GCConfig/OrphanConfig inlined) and the mirrored counters.
The id index is implicit (see header comment); GC duration statistics are
wall-clock-only and carry no algorithmic state, so they are omitted. -/
structure Sequence where
  my_client_id : Nat
  clock : Nat
  vclock : VectorClock
  atoms : List Atom
  pending_orphans : List (OpID × List Atom)
  pending_deletes : List OpID
  auto_gc_enabled : Bool
  tombstone_threshold : Nat
  min_age_threshold : Nat
  max_orphan_buffer_size : Nat
  max_orphan_age : Nat
  tombstone_count : Nat
  total_orphan_count : Nat
deriving DecidableEq, Repr

/-- `Sequence(client_id)` constructor with the default GCConfig and
OrphanConfig field values. -/
def Sequence.init (client_id : Nat) : Sequence :=
  { my_client_id := client_id
    clock := 0
    vclock := VectorClock.init client_id
    atoms := [sentinelAtom]
    pending_orphans := []
    pending_deletes := []
    auto_gc_enabled := false
    tombstone_threshold := 1000
    min_age_threshold := 100
    max_orphan_buffer_size := 10000
    max_orphan_age := 1000
    tombstone_count := 0
    total_orphan_count := 0 }

/-- Insert before position `p` (`std::list::insert(current_it, atom)`;
the scan never produces a position past the end). -/
def insertAt : List Atom → Nat → Atom → List Atom
  | l, 0, x => x :: l
  | [], _ + 1, x => [x]
  | a :: as, p + 1, x => a :: insertAt as p x

/-- Erase the element at position `p` (`std::list::erase`). -/
def eraseAt : List Atom → Nat → List Atom
  | [], _ => []
  | _ :: as, 0 => as
  | a :: as, p + 1 => a :: eraseAt as p

/-- Set the tombstone flag of the atom at position `p`. -/
def markDeletedAt : List Atom → Nat → List Atom
  | [], _ => []
  | a :: as, 0 => { a with is_deleted := true } :: as
  | a :: as, p + 1 => a :: markDeletedAt as p

/-- Orphan-buffer lookup (`pending_orphans.count/operator[]`). -/
def orphFind (m : List (OpID × List Atom)) (k : OpID) : Option (List Atom) :=
  (m.find? (fun e => e.1 = k)).map Prod.snd

/-- Orphan-buffer key erase. -/
def orphErase : List (OpID × List Atom) → OpID → List (OpID × List Atom)
  | [], _ => []
  | e :: es, k => if e.1 = k then es else e :: orphErase es k

/-- `pending_orphans[k].push_back(a)` (missing key default-creates an
empty vector first). -/
def orphAppend : List (OpID × List Atom) → OpID → Atom → List (OpID × List Atom)
  | [], k, a => [(k, [a])]
  | e :: es, k, a =>
    if e.1 = k then (k, e.2 ++ [a]) :: es else e :: orphAppend es k a

/-- Replace the vector stored under key `k`. -/
def orphSet : List (OpID × List Atom) → OpID → List Atom → List (OpID × List Atom)
  | [], k, v => [(k, v)]
  | e :: es, k, v => if e.1 = k then (k, v) :: es else e :: orphSet es k v

/-- Total number of atoms held in the orphan buffer. -/
def orphanSize (s : Sequence) : Nat :=
  (s.pending_orphans.map (fun e => e.2.length)).sum

/-- First-minimum clock value among buffered children
(`std::min_element` by `id.clock`). -/
def minClockVal : List Atom → Nat
  | [] => 0
  | a :: as => as.foldl (fun m x => min m x.id.clock) a.id.clock

/-- `std::sort` order on `(clock, parent_id)` pairs: lexicographic with
`OpID::operator<` on the second component. -/
def agePairLe (x y : Nat × OpID) : Bool :=
  x.1 < y.1 || (x.1 = y.1 && (OpID.lt x.2 y.2 || x.2 = y.2))

/-- One iteration of the eviction loop in `evictOldOrphans`. -/
def evictStep (st : Sequence) (entry : Nat × OpID) : Sequence :=
  let parent_id := entry.2
  match orphFind st.pending_orphans parent_id with
  | none => st
  | some children =>
    if children.isEmpty then st
    else
      let m := minClockVal children
      let j := children.findIdx (fun a => a.id.clock = m)
      let children1 := eraseAt children j
      let st := { st with
        pending_orphans := orphSet st.pending_orphans parent_id children1,
        total_orphan_count := st.total_orphan_count - 1 }
      if children1.isEmpty then
        { st with pending_orphans := orphErase st.pending_orphans parent_id }
      else st

/-- `Sequence::evictOldOrphans`: sort all orphans by `(clock, parent)`
ascending and drop the first `max(1, n/10)`. -/
def evictOldOrphans (s : Sequence) : Sequence :=
  if s.pending_orphans.isEmpty then s
  else
    let orphan_ages :=
      s.pending_orphans.flatMap (fun e => e.2.map (fun o => (o.id.clock, e.1)))
    let sorted := orphan_ages.mergeSort agePairLe
    let to_evict := max 1 (orphan_ages.length / 10)
    (sorted.take to_evict).foldl evictStep s

/-- `Sequence::removeTombstones`: erase each listed id from the
sequence and track the mirrored counter. -/
def removeTombstones (s : Sequence) (to_remove : List OpID) : Sequence :=
  to_remove.foldl (fun st id =>
    match st.atoms.findIdx? (fun a => a.id = id) with
    | some p =>
      { st with atoms := eraseAt st.atoms p,
                tombstone_count := st.tombstone_count - 1 }
    | none => st) s

/-- `Sequence::garbageCollectLocal(min_age_threshold)`; returns the new
state and the removed count. -/
def garbageCollectLocal (s : Sequence) (min_age_threshold : Nat) :
    Sequence × Nat :=
  let current_time := s.clock
  let safe_time := if current_time > min_age_threshold then
      current_time - min_age_threshold else 0
  let to_remove := (s.atoms.filter (fun a =>
      ¬(a.id.client_id = 0 ∧ a.id.clock = 0) ∧ a.is_deleted = true ∧
        a.id.clock ≤ safe_time)).map (fun a => a.id)
  (removeTombstones s to_remove, to_remove.length)

/-- `Sequence::garbageCollect(stable_frontier)`; returns the new state
and the removed count. -/
def garbageCollect (s : Sequence) (stable_frontier : VectorClock) :
    Sequence × Nat :=
  let to_remove := (s.atoms.filter (fun a =>
      ¬(a.id.client_id = 0 ∧ a.id.clock = 0) ∧ a.is_deleted = true ∧
        a.id.clock ≤ vcGet stable_frontier a.id.client_id)).map (fun a => a.id)
  (removeTombstones s to_remove, to_remove.length)

/-- The merge scan of `Sequence::remoteMerge` step by step over the
suffix after the origin, carrying the insertion position. -/
def scanGo : List Atom → Atom → Nat → Nat
  | [], _, pos => pos
  | c :: cs, n, pos =>
    if c.origin.clock < n.origin.clock then pos
    else if c.origin = n.origin ∧ OpID.lt n.id c.id then pos
    else scanGo cs n (pos + 1)

/-- `Sequence::checkPendingOrphans` with the recursive merge of the
drained children abstracted as `recur`. -/
def checkPendingOrphansWith (recur : Sequence → Atom → Sequence)
    (s : Sequence) (just_inserted_id : OpID) : Sequence :=
  match orphFind s.pending_orphans just_inserted_id with
  | none => s
  | some children =>
    let s := { s with
      pending_orphans := orphErase s.pending_orphans just_inserted_id,
      total_orphan_count := s.total_orphan_count - children.length }
    children.foldl recur s

/-- The body of `Sequence::remoteMerge` with the orphan drain
abstracted as `drain`. -/
def remoteMergeCore (drain : Sequence → OpID → Sequence)
    (s : Sequence) (new_atom : Atom) : Sequence :=
  let s := { s with
    clock := max s.clock new_atom.id.clock + 1,
    vclock := vcUpdate s.vclock new_atom.id.client_id new_atom.id.clock }
  if s.atoms.any (fun a => a.id = new_atom.id) then s
  else
    match s.atoms.findIdx? (fun a => a.id = new_atom.origin) with
    | none =>
      let s := if s.total_orphan_count ≥ s.max_orphan_buffer_size then
          evictOldOrphans s else s
      { s with
        pending_orphans := orphAppend s.pending_orphans new_atom.origin new_atom,
        total_orphan_count := s.total_orphan_count + 1 }
    | some parent_pos =>
      let pos := scanGo (s.atoms.drop (parent_pos + 1)) new_atom (parent_pos + 1)
      let s := { s with atoms := insertAt s.atoms pos new_atom }
      let s :=
        if new_atom.id ∈ s.pending_deletes then
          { s with
            atoms := markDeletedAt s.atoms pos,
            tombstone_count := s.tombstone_count + 1,
            pending_deletes := s.pending_deletes.filter (fun x => x ≠ new_atom.id) }
        else s
      let s := drain s new_atom.id
      if s.auto_gc_enabled = true ∧ s.tombstone_threshold ≤ s.tombstone_count then
        (garbageCollectLocal s s.min_age_threshold).1
      else s

/-- `Sequence::remoteMerge` with the recursion through the orphan drain
made explicit: `fuel` bounds the drain depth. A drain only recurses
after erasing at least one buffered orphan, so any chain of nested
drains started from a call removes one orphan per level; the public
wrapper supplies `orphanSize s + 1` fuel, which therefore never runs
out, and at fuel 0 only the (then unreachable) drain is skipped. -/
def remoteMergeF : Nat → Sequence → Atom → Sequence
  | 0 => remoteMergeCore (fun s _ => s)
  | fuel + 1 => remoteMergeCore (checkPendingOrphansWith (remoteMergeF fuel))

/-- Public `remoteMerge`: the C++ recursion always terminates because
every drain removes buffered orphans first; `orphanSize s + 1` fuel is
an upper bound on the drain depth. -/
def remoteMerge (s : Sequence) (new_atom : Atom) : Sequence :=
  remoteMergeF (orphanSize s + 1) s new_atom

/-- The predecessor walk of `Sequence::localInsert`, one loop iteration
per constructor: `cur` is the atom under the iterator, `rest` the atoms
after it. -/
def walkGo : Atom → List Atom → Nat → Atom
  | cur, rest, steps =>
    if isVisible cur = true ∧ steps = 0 then cur
    else
      let steps1 := if isVisible cur = true then steps - 1 else steps
      if cur.content = 0 ∧ steps1 = 0 then cur
      else
        match rest with
        | [] => cur
        | c :: cs => walkGo c cs steps1

/-- `Sequence::localInsert`. Returns the transmitted atom and the new
state. -/
def localInsert (s : Sequence) (literal_index : Nat) (content : Nat) :
    Atom × Sequence :=
  let tick := s.clock + 1
  let s := { s with clock := tick, vclock := vcTick s.vclock }
  let new_id : OpID := ⟨s.my_client_id, tick⟩
  let parent := match s.atoms with
    | [] => sentinelAtom
    | a :: rest => walkGo a rest literal_index
  let new_atom : Atom := ⟨new_id, parent.id, content, false⟩
  (new_atom, remoteMerge s new_atom)

/-- The visible-index walk of `Sequence::localDelete`: position of the
atom at visible index `target`, if any. -/
def findVisibleIdx : List Atom → Nat → Nat → Option Nat
  | [], _, _ => none
  | a :: as, target, pos =>
    if isVisible a = true then
      if target = 0 then some pos
      else findVisibleIdx as (target - 1) (pos + 1)
    else findVisibleIdx as target (pos + 1)

/-- `Sequence::localDelete`. Returns the deleted id (the sentinel id on
out-of-range) and the new state. -/
def localDelete (s : Sequence) (literal_index : Nat) : OpID × Sequence :=
  let s := { s with clock := s.clock + 1, vclock := vcTick s.vclock }
  match findVisibleIdx s.atoms literal_index 0 with
  | some p =>
    let target_id := (s.atoms.getD p sentinelAtom).id
    let s := { s with
      atoms := markDeletedAt s.atoms p,
      tombstone_count := s.tombstone_count + 1 }
    let s :=
      if s.auto_gc_enabled = true ∧ s.tombstone_threshold ≤ s.tombstone_count then
        (garbageCollectLocal s s.min_age_threshold).1
      else s
    (target_id, s)
  | none => (sentinelId, s)

/-- `Sequence::remoteDelete`. -/
def remoteDelete (s : Sequence) (target_id : OpID) : Sequence :=
  match s.atoms.findIdx? (fun a => a.id = target_id) with
  | some p =>
    if (s.atoms.getD p sentinelAtom).is_deleted = false then
      { s with
        atoms := markDeletedAt s.atoms p,
        tombstone_count := s.tombstone_count + 1 }
    else s
  | none =>
    if target_id ∈ s.pending_deletes then s
    else { s with pending_deletes := s.pending_deletes ++ [target_id] }

/-- `Sequence::getDelta(peer_state)`. -/
def getDelta (s : Sequence) (peer_state : VectorClock) : List Atom :=
  s.atoms.filter (fun a =>
    ¬(a.id.client_id = 0 ∧ a.id.clock = 0) ∧
      vcGet peer_state a.id.client_id < a.id.clock)

/-- `Sequence::applyDelta(delta)`. -/
def applyDelta (s : Sequence) (delta : List Atom) : Sequence :=
  delta.foldl (fun st a =>
    if a.is_deleted = true then remoteDelete st a.id else remoteMerge st a) s

/-- `Sequence::toString()`, as the list of visible content bytes. -/
def seqToString (s : Sequence) : List Nat :=
  (s.atoms.filter (fun a => isVisible a)).map (fun a => a.content)

/-! ### Operation alphabet over a sequence -/

/-- The public mutators of `Sequence` that the invariant claims quantify
over. -/
inductive SeqOp where
  | linsert (literal_index : Nat) (content : Nat)
  | ldelete (literal_index : Nat)
  | rmerge (a : Atom)
  | rdelete (target : OpID)
  | adelta (delta : List Atom)
  | gcFrontier (frontier : VectorClock)
  | gcLocal (min_age : Nat)
deriving DecidableEq, Repr

/-- Apply one operation. -/
def applyOp (s : Sequence) : SeqOp → Sequence
  | .linsert i c => (localInsert s i c).2
  | .ldelete i => (localDelete s i).2
  | .rmerge a => remoteMerge s a
  | .rdelete target => remoteDelete s target
  | .adelta d => applyDelta s d
  | .gcFrontier f => (garbageCollect s f).1
  | .gcLocal m => (garbageCollectLocal s m).1

/-- Run an operation list from a freshly constructed sequence. -/
def runOps (client_id : Nat) (ops : List SeqOp) : Sequence :=
  ops.foldl applyOp (Sequence.init client_id)

/-! ### GC coordinator (gc_coordinator.hpp)

`std::chrono::steady_clock` timestamps are explicit `Nat` milliseconds;
each time-dependent member takes the current time `now` as a
parameter. -/

/-- `PeerState` from gc_coordinator.hpp. -/
structure PeerState where
  peer_id : Nat
  vector_clock : VectorClock
  last_seen : Nat
  is_active : Bool
deriving DecidableEq, Repr

/-- `PeerState(id)` constructor: default vector clock, stamped with the
current time, not active until first update. -/
def PeerState.init (id now : Nat) : PeerState :=
  ⟨id, VectorClock.empty, now, false⟩

/-- `GCCoordinator` state with its `Config` inlined. -/
structure GCCoordinator where
  my_peer_id : Nat
  heartbeat_interval_ms : Nat
  peer_timeout_ms : Nat
  gc_interval_ms : Nat
  auto_gc_enabled : Bool
  min_peers_for_gc : Nat
  peers : List (Nat × PeerState)
  last_gc_time : Nat
  my_vector_clock : VectorClock
deriving DecidableEq, Repr

/-- `GCCoordinator(my_peer_id)` with the default `Config`. -/
def GCCoordinator.init (my_peer_id now : Nat) : GCCoordinator :=
  { my_peer_id := my_peer_id
    heartbeat_interval_ms := 5000
    peer_timeout_ms := 30000
    gc_interval_ms := 60000
    auto_gc_enabled := true
    min_peers_for_gc := 1
    peers := []
    last_gc_time := now
    my_vector_clock := VectorClock.init my_peer_id }

/-- `GCCoordinator::registerPeer`. -/
def registerPeer (g : GCCoordinator) (peer_id now : Nat) : GCCoordinator :=
  if peer_id = g.my_peer_id then g
  else if (g.peers.find? (fun e => e.1 = peer_id)).isSome then g
  else { g with peers := g.peers ++ [(peer_id, PeerState.init peer_id now)] }

/-- Replace the state stored under a peer key. -/
def peerSet : List (Nat × PeerState) → Nat → PeerState → List (Nat × PeerState)
  | [], k, v => [(k, v)]
  | e :: es, k, v => if e.1 = k then (k, v) :: es else e :: peerSet es k v

/-- `GCCoordinator::updatePeerState`. -/
def updatePeerState (g : GCCoordinator) (peer_id : Nat) (vc : VectorClock)
    (now : Nat) : GCCoordinator :=
  let g := match g.peers.find? (fun e => e.1 = peer_id) with
    | some _ => g
    | none => registerPeer g peer_id now
  match g.peers.find? (fun e => e.1 = peer_id) with
  | some e =>
    let st := { e.2 with vector_clock := vc, last_seen := now, is_active := true }
    { g with peers := peerSet g.peers peer_id st }
  | none => g

/-- `GCCoordinator::removePeer`. -/
def removePeer (g : GCCoordinator) (peer_id : Nat) : GCCoordinator :=
  { g with peers := g.peers.filter (fun e => e.1 ≠ peer_id) }

/-- `GCCoordinator::getActivePeers`: active flag set and last seen
within the timeout window. -/
def getActivePeers (g : GCCoordinator) (now : Nat) : List PeerState :=
  (g.peers.filter (fun e =>
    e.2.is_active = true ∧ now - e.2.last_seen < g.peer_timeout_ms)).map
    (fun e => e.2)

/-- `GCCoordinator::computeStableFrontier`: all active peer clocks plus
the own clock, then `computeMinimum` (the empty-list branch is kept
exactly as written in the source, where the preceding `push_back` of the
own clock makes it unreachable). -/
def computeStableFrontier (g : GCCoordinator) (now : Nat) : VectorClock :=
  let all_clocks := (getActivePeers g now).map (fun p => p.vector_clock)
      ++ [g.my_vector_clock]
  if all_clocks.isEmpty then VectorClock.init g.my_peer_id
  else computeMinimum all_clocks

/-- `GCCoordinator::shouldTriggerGC`. -/
def shouldTriggerGC (g : GCCoordinator) (now : Nat) : Bool :=
  if g.auto_gc_enabled = false then false
  else if now - g.last_gc_time < g.gc_interval_ms then false
  else if (getActivePeers g now).length < g.min_peers_for_gc then false
  else true

/-- `GCCoordinator::performCoordinatedGC`. -/
def performCoordinatedGC (g : GCCoordinator) (doc : Sequence) (now : Nat) :
    GCCoordinator × Sequence × Nat :=
  let frontier := computeStableFrontier g now
  let res := garbageCollect doc frontier
  ({ g with last_gc_time := now }, res.1, res.2)

/-! ### Codecs (binary_packer.hpp, vle_encoding.hpp) -/

/-- The byte-emitting loop of the `push_u64` lambda in
`BinaryPacker::pack`, one iteration per constructor: byte `i` of the
original loop is `(v >> (i*8)) & 0xFF`, equal to the low byte after `i`
iterated right-shifts by 8 (`Nat.shiftRight_add`). -/
def leBytes : Nat → Nat → List Nat
  | 0, _ => []
  | k + 1, v => (v &&& 255) :: leBytes k (v >>> 8)

/-- Little-endian byte image of a `uint64_t` (the `push_u64` lambda in
`BinaryPacker::pack`). -/
def u64LE (v : Nat) : List Nat := leBytes 8 v

/-- The byte-reading loop of the `read_u64` lambda in
`BinaryPacker::unpack`: `val |= byte_i << (i*8)` accumulated over `i`,
written as a right fold (the two agree because `|||` is associative and
commutative and shifts distribute over it). -/
def rdLE : Nat → List Nat → Nat
  | 0, _ => 0
  | k + 1, l => l.headD 0 ||| (rdLE k l.tail <<< 8)

/-- Little-endian reassembly of 8 bytes at `offset`. -/
def rdU64 (buffer : List Nat) (offset : Nat) : Nat :=
  rdLE 8 (buffer.drop offset)

/-- `BinaryPacker::pack`: 34 bytes, four u64 fields, content byte,
tombstone byte. -/
def binaryPack (atom : Atom) : List Nat :=
  u64LE atom.id.client_id ++ u64LE atom.id.clock ++
    u64LE atom.origin.client_id ++ u64LE atom.origin.clock ++
    [atom.content % 256, if atom.is_deleted then 1 else 0]

/-- `BinaryPacker::unpack`: fails iff the buffer holds fewer than 34
bytes. -/
def binaryUnpack (buffer : List Nat) : Option Atom :=
  if buffer.length < 34 then none
  else some
    { id := ⟨rdU64 buffer 0, rdU64 buffer 8⟩
      origin := ⟨rdU64 buffer 16, rdU64 buffer 24⟩
      content := buffer.getD 32 0
      is_deleted := decide (buffer.getD 33 0 ≠ 0) }

/-- One do-while iteration of `VLEEncoding::encodeUInt64` per fuel
step; a `uint64_t` needs at most 10 iterations, so the fuel of the
wrapper below is never exhausted on the values the C++ code can hold. -/
def encodeGo : Nat → Nat → List Nat
  | 0, v => [v &&& 127]
  | fuel + 1, v =>
    let byte := v &&& 127
    if v >>> 7 = 0 then [byte]
    else (byte ||| 128) :: encodeGo fuel (v >>> 7)

/-- `VLEEncoding::encodeUInt64` (LEB128): 7 data bits per byte, high
bit marks continuation. -/
def encodeUInt64 (v : Nat) : List Nat := encodeGo 10 v

/-- `VLEEncoding::decodeUInt64`, one byte per step: accumulator, shift
and consumed-byte count; `uint64_t` truncation of the shifted group is
explicit. -/
def decodeGo : List Nat → Nat → Nat → Nat → Option (Nat × Nat)
  | [], _, _, _ => none
  | b :: rest, shift, acc, consumed =>
    let acc := acc ||| ((b &&& 127) <<< shift) % 2 ^ 64
    if b &&& 128 = 0 then some (acc, consumed + 1)
    else
      let shift := shift + 7
      if 64 ≤ shift then none
      else decodeGo rest shift acc (consumed + 1)

/-- Decode a LEB128 value from the front of a buffer, returning the
value and the advanced offset. -/
def decodeUInt64 (buffer : List Nat) : Option (Nat × Nat) :=
  decodeGo buffer 0 0 0

/-- `VLEPacker::pack`. -/
def vlePack (atom : Atom) : List Nat :=
  encodeUInt64 atom.id.client_id ++ encodeUInt64 atom.id.clock ++
    encodeUInt64 atom.origin.client_id ++ encodeUInt64 atom.origin.clock ++
    [atom.content % 256, if atom.is_deleted then 1 else 0]

/-- `VLEPacker::unpack`, returning the atom and the final offset (the
internal `offset` variable after the two fixed bytes). -/
def vleUnpack (buffer : List Nat) : Option (Atom × Nat) :=
  match decodeUInt64 buffer with
  | none => none
  | some (v1, n1) =>
    match decodeUInt64 (buffer.drop n1) with
    | none => none
    | some (v2, n2) =>
      match decodeUInt64 (buffer.drop (n1 + n2)) with
      | none => none
      | some (v3, n3) =>
        match decodeUInt64 (buffer.drop (n1 + n2 + n3)) with
        | none => none
        | some (v4, n4) =>
          let off := n1 + n2 + n3 + n4
          if buffer.length < off + 2 then none
          else some
            ({ id := ⟨v1, v2⟩, origin := ⟨v3, v4⟩
               content := buffer.getD off 0
               is_deleted := decide (buffer.getD (off + 1) 0 ≠ 0) }, off + 2)

/-! ### Document persistence (Sequence::save / Sequence::load) -/

/-- Little-endian byte image of a `uint32_t`. -/
def u32LE (v : Nat) : List Nat := leBytes 4 v

/-- Little-endian reassembly of 4 bytes. -/
def rdU32 (buffer : List Nat) (offset : Nat) : Nat :=
  rdLE 4 (buffer.drop offset)

/-- `VectorClock::save`: `u32` entry count, then `(u64 id, u64 time)`
pairs in iteration order. -/
def vcSave (vc : VectorClock) : List Nat :=
  u32LE vc.entries.length ++
    vc.entries.flatMap (fun e => u64LE e.1 ++ u64LE e.2)

/-- Plain assignment `clock[id] = time` on the entry list. -/
def vcSetEntries : List (Nat × Nat) → Nat → Nat → List (Nat × Nat)
  | [], k, t => [(k, t)]
  | e :: es, k, t => if e.1 = k then (k, t) :: es else e :: vcSetEntries es k t

/-- The entry-reading loop of `VectorClock::load` into a cleared map. -/
def vcLoadEntries : Nat → List (Nat × Nat) → List Nat →
    Option (List (Nat × Nat) × List Nat)
  | 0, acc, rest => some (acc, rest)
  | n + 1, acc, rest =>
    if rest.length < 16 then none
    else vcLoadEntries n (vcSetEntries acc (rdU64 rest 0) (rdU64 rest 8))
      (rest.drop 16)

/-- `VectorClock::load`: clear, read count, read entries; `my_id` is
untouched. Returns the clock and the unconsumed bytes (`none` models a
truncated stream, on which the C++ reads fail). -/
def vcLoad (vc : VectorClock) (bytes : List Nat) :
    Option (VectorClock × List Nat) :=
  if bytes.length < 4 then none
  else
    match vcLoadEntries (rdU32 bytes 0) [] (bytes.drop 4) with
    | none => none
    | some (entries, rest) => some ({ vc with entries := entries }, rest)

/-- `Sequence::save`: magic, version 2, client id, Lamport value,
vector clock, atom count, fixed-layout atoms. -/
def saveSeq (s : Sequence) : List Nat :=
  [79, 77, 78, 73] ++ [2] ++ u64LE s.my_client_id ++ u64LE s.clock ++
    vcSave s.vclock ++ u64LE s.atoms.length ++
    s.atoms.flatMap (fun a =>
      u64LE a.id.client_id ++ u64LE a.id.clock ++
        u64LE a.origin.client_id ++ u64LE a.origin.clock ++
        [a.content % 256, if a.is_deleted then 1 else 0])

/-- The atom-reading loop of `Sequence::load`; note `is_deleted` is set
by comparison with 1. -/
def readAtoms : Nat → List Nat → Option (List Atom × List Nat)
  | 0, rest => some ([], rest)
  | n + 1, rest =>
    if rest.length < 34 then none
    else
      let a : Atom :=
        { id := ⟨rdU64 rest 0, rdU64 rest 8⟩
          origin := ⟨rdU64 rest 16, rdU64 rest 24⟩
          content := rest.getD 32 0
          is_deleted := decide (rest.getD 33 0 = 1) }
      match readAtoms n (rest.drop 34) with
      | none => none
      | some (as, rest1) => some (a :: as, rest1)

/-- `Sequence::load`: check magic and version, clear the containers
(the mirrored `tombstone_count` and `total_orphan_count` are not
touched), merge the stored Lamport value, load the vector clock for
version 2, rebuild the atoms in file order. `none` models a malformed
or truncated stream. -/
def loadSeq (s : Sequence) (bytes : List Nat) : Option Sequence :=
  if bytes.length < 5 then none
  else if bytes.take 4 ≠ [79, 77, 78, 73] then none
  else
    let ver := bytes.getD 4 0
    if ver ≠ 1 ∧ ver ≠ 2 then none
    else
      let rest := bytes.drop 5
      if rest.length < 16 then none
      else
        let cid := rdU64 rest 0
        let clock_val := rdU64 rest 8
        let rest := rest.drop 16
        let vcRes : Option (VectorClock × List Nat) :=
          if ver = 2 then vcLoad s.vclock rest else some (s.vclock, rest)
        match vcRes with
        | none => none
        | some (vc, rest) =>
          if rest.length < 8 then none
          else
            match readAtoms (rdU64 rest 0) (rest.drop 8) with
            | none => none
            | some (atoms, _) => some
              { s with
                my_client_id := cid
                clock := max s.clock clock_val + 1
                vclock := vc
                atoms := atoms
                pending_orphans := []
                pending_deletes := []
                total_orphan_count := s.total_orphan_count }

/-- `GCCoordinator::updateMyVectorClock`. -/
def updateMyVectorClock (g : GCCoordinator) (vc : VectorClock) : GCCoordinator :=
  { g with my_vector_clock := vc }

/-! ### Helper lemmas on vector clocks -/

/-- A key with a nonzero `get` value occurs in the entry list. -/
theorem vcGet_mem_of_ne_zero (vc : VectorClock) (k : Nat)
    (h : vcGet vc k ≠ 0) : k ∈ vc.entries.map Prod.fst := by
  unfold vcGet at h
  cases hf : vc.entries.find? (fun e => e.1 = k) with
  | none => rw [hf] at h; exact absurd rfl h
  | some e =>
    have hmem := List.mem_of_find?_eq_some hf
    have hpred := List.find?_some hf
    exact List.mem_map.mpr ⟨e, hmem, of_decide_eq_true hpred⟩

/-- The flag scan over a key list that covers the keys of the larger
side is equivalent to an unrestricted existential: a strictly larger
entry is nonzero, hence its key occurs. -/
theorem any_get_lt_iff (x y : VectorClock) (ks : List Nat)
    (hy : ∀ k ∈ y.entries.map Prod.fst, k ∈ ks) :
    (ks.any (fun k => vcGet x k < vcGet y k) = true) ↔
      ∃ p, vcGet x p < vcGet y p := by
  constructor
  · intro h
    obtain ⟨k, _, hk⟩ := List.any_eq_true.mp h
    exact ⟨k, of_decide_eq_true hk⟩
  · rintro ⟨p, hp⟩
    refine List.any_eq_true.mpr ⟨p, hy p (vcGet_mem_of_ne_zero y p ?_),
      decide_eq_true hp⟩
    omega

/-- The `this_less` flag of `compare` holds iff some entry of `vc` is
strictly below the corresponding entry of `other`. -/
theorem vcFlags_fst_iff (a b : VectorClock) :
    ((vcFlags a b).1 = true) ↔ ∃ p, vcGet a p < vcGet b p := by
  exact any_get_lt_iff a b _ (fun k hk => List.mem_append_right _ hk)

/-- The `this_greater` flag of `compare` holds iff some entry of `vc`
is strictly above the corresponding entry of `other`. -/
theorem vcFlags_snd_iff (a b : VectorClock) :
    ((vcFlags a b).2 = true) ↔ ∃ p, vcGet b p < vcGet a p := by
  exact any_get_lt_iff b a _ (fun k hk => List.mem_append_left _ hk)

/-! ### Helper lemmas on bytes and LEB128 -/

/-- Disjoint or is addition: the low `s` bits and a value shifted up by
`s` do not overlap. -/
theorem lor_shiftLeft_eq_add {s a b : Nat} (ha : a < 2 ^ s) :
    a ||| (b <<< s) = a + 2 ^ s * b := by
  rw [Nat.shiftLeft_eq, Nat.mul_comm b (2 ^ s), Nat.or_comm,
    ← Nat.mul_add_lt_is_or ha b]
  omega

/-- A value below 128 has no bit 7. -/
theorem and_128_eq_zero {v : Nat} (h : v < 128) : v &&& 128 = 0 := by
  apply Nat.eq_of_testBit_eq
  intro i
  simp only [Nat.testBit_and, Nat.zero_testBit]
  have h128 : (128 : Nat) = 2 ^ 7 := by norm_num
  rw [h128, Nat.testBit_two_pow]
  rcases eq_or_ne 7 i with rfl | hne
  · simp [Nat.testBit_lt_two_pow (show v < 2 ^ 7 by omega)]
  · simp [hne]

/-- Setting the continuation bit keeps bit 7 set. -/
theorem or_128_and_128 (x : Nat) : (x ||| 128) &&& 128 = 128 := by
  apply Nat.eq_of_testBit_eq
  intro i
  simp only [Nat.testBit_and, Nat.testBit_or]
  have h128 : (128 : Nat) = 2 ^ 7 := by norm_num
  rw [h128, Nat.testBit_two_pow]
  rcases eq_or_ne 7 i with rfl | hne
  · simp
  · simp [hne]

/-- Byte reassembly inverts byte emission on values that fit. -/
theorem rdLE_leBytes (k : Nat) :
    ∀ (v : Nat) (rest : List Nat), v < 2 ^ (8 * k) →
      rdLE k (leBytes k v ++ rest) = v := by
  induction k with
  | zero =>
    intro v rest hv
    have : v = 0 := by simpa using hv
    subst this
    rfl
  | succ k ih =>
    intro v rest hv
    have h255 : v &&& 255 = v % 256 := by
      have h : (255 : Nat) = 2 ^ 8 - 1 := by norm_num
      rw [h, Nat.and_pow_two_sub_one_eq_mod]
    have hshift : v >>> 8 = v / 256 := by
      rw [Nat.shiftRight_eq_div_pow]
    have hlt : v >>> 8 < 2 ^ (8 * k) := by
      rw [hshift]
      have hp : 2 ^ (8 * (k + 1)) = 256 * 2 ^ (8 * k) := by
        rw [show 8 * (k + 1) = 8 + 8 * k by ring, pow_add]
        norm_num
      rw [hp] at hv
      exact Nat.div_lt_of_lt_mul hv
    show rdLE (k + 1) ((v &&& 255) :: (leBytes k (v >>> 8) ++ rest)) = v
    show (v &&& 255) ||| (rdLE k (leBytes k (v >>> 8) ++ rest) <<< 8) = v
    rw [ih (v >>> 8) rest hlt, h255,
      lor_shiftLeft_eq_add (show v % 256 < 2 ^ 8 by omega), hshift]
    omega

/-- u64 byte-image round trip. -/
theorem rdU64_u64LE (v : Nat) (rest : List Nat) (hv : v < 2 ^ 64) :
    rdU64 (u64LE v ++ rest) 0 = v := by
  unfold rdU64 u64LE
  rw [List.drop_zero]
  exact rdLE_leBytes 8 v rest (by norm_num; omega)

/-- `leBytes` emits exactly `k` bytes. -/
theorem leBytes_length (k v : Nat) : (leBytes k v).length = k := by
  induction k generalizing v with
  | zero => rfl
  | succ k ih => simp [leBytes, ih]

/-- Dropping a prefix plus `n` drops `n` into the suffix. -/
theorem drop_append_len {α : Type} (l₁ l₂ : List α) (n : Nat) :
    (l₁ ++ l₂).drop (l₁.length + n) = l₂.drop n := by
  induction l₁ with
  | nil => simp
  | cons a t ih =>
    have hidx : (a :: t).length + n = (t.length + n) + 1 := by
      simp [List.length_cons]
      omega
    rw [hidx]
    show (t ++ l₂).drop (t.length + n) = l₂.drop n
    exact ih

/-- Reading a default-valued element past a known prefix. -/
theorem getD_append_len {α : Type} (l₁ l₂ : List α) (j : Nat) (d : α) :
    (l₁ ++ l₂).getD (l₁.length + j) d = l₂.getD j d := by
  induction l₁ with
  | nil => simp
  | cons a t ih =>
    have hidx : (a :: t).length + j = (t.length + j) + 1 := by
      simp [List.length_cons]
      omega
    rw [hidx]
    show (t ++ l₂).getD (t.length + j) d = l₂.getD j d
    exact ih

/-- One-byte LEB128 step: a final group (no continuation bit) adds the
group below the current shift position and stops. -/
theorem decodeGo_last (v shift acc consumed : Nat) (rest : List Nat)
    (hv : v < 128) (hb : v < 2 ^ (64 - shift)) (hacc : acc < 2 ^ shift)
    (hs : shift < 64) :
    decodeGo (v :: rest) shift acc consumed =
      some (acc + 2 ^ shift * v, consumed + 1) := by
  have hand : v &&& 127 = v := by
    have h : (127 : Nat) = 2 ^ 7 - 1 := by norm_num
    rw [h]
    exact Nat.and_pow_two_sub_one_of_lt_two_pow (by omega)
  have hsmall : v <<< shift < 2 ^ 64 := by
    rw [Nat.shiftLeft_eq]
    calc v * 2 ^ shift < 2 ^ (64 - shift) * 2 ^ shift :=
        mul_lt_mul_of_pos_right hb (pow_pos (by norm_num) shift)
      _ = 2 ^ 64 := by rw [← pow_add]; congr 1; omega
  show (let acc1 := acc ||| (v &&& 127) <<< shift % 2 ^ 64
    if v &&& 128 = 0 then some (acc1, consumed + 1)
    else
      let shift1 := shift + 7
      if 64 ≤ shift1 then none else decodeGo rest shift1 acc1 (consumed + 1))
      = some (acc + 2 ^ shift * v, consumed + 1)
  rw [hand, Nat.mod_eq_of_lt hsmall, and_128_eq_zero hv,
    lor_shiftLeft_eq_add hacc]
  simp

/-- LEB128 round trip at any shift position, fuel and remainder:
decoding the emitted groups of `v` into an accumulator of the bits
below `shift` yields `acc + 2^shift * v` and consumes exactly the
emitted bytes. -/
theorem decodeGo_encodeGo (fuel : Nat) :
    ∀ (v shift acc consumed : Nat) (rest : List Nat),
      v < 2 ^ (64 - shift) → acc < 2 ^ shift → shift < 64 →
      64 ≤ shift + 7 * (fuel + 1) →
      decodeGo (encodeGo fuel v ++ rest) shift acc consumed =
        some (acc + 2 ^ shift * v, consumed + (encodeGo fuel v).length) := by
  induction fuel with
  | zero =>
    intro v shift acc consumed rest hv hacc hs hfuel
    have hv128 : v < 128 := by
      have h7 : 64 - shift ≤ 7 := by omega
      calc v < 2 ^ (64 - shift) := hv
        _ ≤ 2 ^ 7 := Nat.pow_le_pow_right (by norm_num) h7
        _ = 128 := by norm_num
    have hand : v &&& 127 = v := by
      have h : (127 : Nat) = 2 ^ 7 - 1 := by norm_num
      rw [h]
      exact Nat.and_pow_two_sub_one_of_lt_two_pow (by omega)
    show decodeGo ([v &&& 127] ++ rest) shift acc consumed = _
    rw [hand]
    exact decodeGo_last v shift acc consumed rest hv128 hv hacc hs
  | succ fuel ih =>
    intro v shift acc consumed rest hv hacc hs hfuel
    rcases Nat.eq_zero_or_pos (v >>> 7) with hlo | hhi
    · have hv128 : v < 128 := by
        rw [Nat.shiftRight_eq_div_pow] at hlo
        norm_num at hlo
        omega
      have hand : v &&& 127 = v := by
        have h : (127 : Nat) = 2 ^ 7 - 1 := by norm_num
        rw [h]
        exact Nat.and_pow_two_sub_one_of_lt_two_pow (by omega)
      show decodeGo (encodeGo (fuel + 1) v ++ rest) shift acc consumed = _
      rw [show encodeGo (fuel + 1) v = [v &&& 127] by
        simp [encodeGo, hlo], hand]
      exact decodeGo_last v shift acc consumed rest hv128 hv hacc hs
    · have hge : 128 ≤ v := by
        rw [Nat.shiftRight_eq_div_pow] at hhi
        norm_num at hhi
        omega
      have hsrange : shift + 7 < 64 := by
        by_contra hc
        have h7 : 64 - shift ≤ 7 := by omega
        have : v < 128 := by
          calc v < 2 ^ (64 - shift) := hv
            _ ≤ 2 ^ 7 := Nat.pow_le_pow_right (by norm_num) h7
            _ = 128 := by norm_num
        omega
      have hne : ¬(v >>> 7 = 0) := by omega
      have hmod : v &&& 127 = v % 128 := by
        have h : (127 : Nat) = 2 ^ 7 - 1 := by norm_num
        rw [h, Nat.and_pow_two_sub_one_eq_mod]
      have hdiv : v >>> 7 = v / 128 := by
        rw [Nat.shiftRight_eq_div_pow]
      have henc : encodeGo (fuel + 1) v =
          ((v &&& 127) ||| 128) :: encodeGo fuel (v >>> 7) := by
        simp [encodeGo, hne]
      rw [henc]
      have hb127 : ((v &&& 127) ||| 128) &&& 127 = v % 128 := by
        have hd : ((v &&& 127) ||| 128) &&& 127
            = ((v &&& 127) &&& 127) ||| (128 &&& 127) := Nat.and_distrib_right _ _ _
        rw [hd, Nat.and_assoc]
        have h1 : (127 : Nat) &&& 127 = 127 := by decide
        have h2 : (128 : Nat) &&& 127 = 0 := by decide
        rw [h1, h2, Nat.or_zero, hmod]
      have hb128 : ((v &&& 127) ||| 128) &&& 128 = 128 := or_128_and_128 _
      have hsmall : (v % 128) <<< shift < 2 ^ 64 := by
        rw [Nat.shiftLeft_eq]
        calc v % 128 * 2 ^ shift < 128 * 2 ^ shift :=
            mul_lt_mul_of_pos_right (Nat.mod_lt v (by norm_num))
              (pow_pos (by norm_num) shift)
          _ = 2 ^ (shift + 7) := by rw [pow_add]; ring
          _ ≤ 2 ^ 64 := Nat.pow_le_pow_right (by norm_num) (by omega)
      have hacc1 : acc + 2 ^ shift * (v % 128) < 2 ^ (shift + 7) := by
        have h1 : v % 128 < 128 := Nat.mod_lt v (by norm_num)
        have h2 : acc + 2 ^ shift * (v % 128)
            < 2 ^ shift + 2 ^ shift * 127 := by
          have : 2 ^ shift * (v % 128) ≤ 2 ^ shift * 127 :=
            Nat.mul_le_mul_left _ (by omega)
          omega
        calc acc + 2 ^ shift * (v % 128) < 2 ^ shift + 2 ^ shift * 127 := h2
          _ = 2 ^ shift * 128 := by ring
          _ = 2 ^ (shift + 7) := by rw [pow_add]; ring
      have hv7 : v >>> 7 < 2 ^ (64 - (shift + 7)) := by
        rw [hdiv]
        have hsplit : 2 ^ (64 - shift) = 128 * 2 ^ (64 - (shift + 7)) := by
          rw [show (128 : Nat) = 2 ^ 7 by norm_num, ← pow_add]
          congr 1
          omega
        rw [hsplit] at hv
        exact Nat.div_lt_of_lt_mul hv
      show decodeGo ((((v &&& 127) ||| 128) :: (encodeGo fuel (v >>> 7) ++ rest)))
          shift acc consumed = _
      show (let acc1 := acc |||
          ((((v &&& 127) ||| 128)) &&& 127) <<< shift % 2 ^ 64
        if ((v &&& 127) ||| 128) &&& 128 = 0 then some (acc1, consumed + 1)
        else
          let shift1 := shift + 7
          if 64 ≤ shift1 then none
          else decodeGo (encodeGo fuel (v >>> 7) ++ rest) shift1 acc1
            (consumed + 1)) = _
      rw [hb127, hb128, Nat.mod_eq_of_lt hsmall, lor_shiftLeft_eq_add hacc]
      simp only [if_neg (by norm_num : ¬(128 : Nat) = 0),
        if_neg (by omega : ¬64 ≤ shift + 7)]
      rw [ih (v >>> 7) (shift + 7) (acc + 2 ^ shift * (v % 128))
        (consumed + 1) rest hv7 hacc1 hsrange (by omega)]
      have hvdm : v % 128 + 128 * (v / 128) = v := by omega
      have h1 : acc + 2 ^ shift * (v % 128) + 2 ^ (shift + 7) * (v >>> 7)
          = acc + 2 ^ shift * v := by
        rw [hdiv]
        calc acc + 2 ^ shift * (v % 128) + 2 ^ (shift + 7) * (v / 128)
            = acc + 2 ^ shift * (v % 128 + 128 * (v / 128)) := by
              rw [pow_add]; ring
          _ = acc + 2 ^ shift * v := by rw [hvdm]
      rw [h1]
      simp only [List.length_cons]
      have h2 : consumed + 1 + (encodeGo fuel (v >>> 7)).length
          = consumed + ((encodeGo fuel (v >>> 7)).length + 1) := by omega
      rw [h2]

/-- Full LEB128 round trip on any `uint64_t` value, with any trailing
bytes: the decoded value is `v` and the advanced offset is exactly the
encoded length. -/
theorem decodeUInt64_encodeUInt64 (v : Nat) (rest : List Nat)
    (hv : v < 2 ^ 64) :
    decodeUInt64 (encodeUInt64 v ++ rest) =
      some (v, (encodeUInt64 v).length) := by
  unfold decodeUInt64 encodeUInt64
  have h := decodeGo_encodeGo 10 v 0 0 0 rest (by simpa using hv)
    (by norm_num) (by norm_num) (by norm_num)
  simpa using h

/-- Indexing equals dropping then reading the head. -/
theorem getD_eq_drop_headD {α : Type} (l : List α) (n : Nat) (d : α) :
    l.getD n d = (l.drop n).headD d := by
  induction l generalizing n with
  | nil => simp
  | cons a t ih =>
    cases n with
    | zero => rfl
    | succ n => exact ih n

/-! ### Claim C9: codec round trips -/

/-- C9: both codecs reconstruct every atom field-by-field from their
own output, the fixed codec emits exactly 34 bytes, and the VLE decoder
advances its offset to exactly the packed length (the four LEB128
fields plus the two fixed bytes). Field values are bounded as the C++
`uint64_t`/byte types bound them. -/
theorem C9_codec_roundtrip (a : Atom)
    (h1 : a.id.client_id < 2 ^ 64) (h2 : a.id.clock < 2 ^ 64)
    (h3 : a.origin.client_id < 2 ^ 64) (h4 : a.origin.clock < 2 ^ 64)
    (h5 : a.content < 256) :
    binaryUnpack (binaryPack a) = some a ∧
      (binaryPack a).length = 34 ∧
      vleUnpack (vlePack a) = some (a, (vlePack a).length) := by
  have hu64len : ∀ v : Nat, (u64LE v).length = 8 := fun v => leBytes_length 8 v
  have hcontent : a.content % 256 = a.content := Nat.mod_eq_of_lt h5
  have hdel : decide ((if a.is_deleted then (1 : Nat) else 0) ≠ 0)
      = a.is_deleted := by
    cases a.is_deleted <;> rfl
  have hlen : (binaryPack a).length = 34 := by
    simp [binaryPack, hu64len]
  refine ⟨?_, hlen, ?_⟩
  · -- fixed codec
    have hb : binaryPack a = u64LE a.id.client_id ++ (u64LE a.id.clock ++
        (u64LE a.origin.client_id ++ (u64LE a.origin.clock ++
          [a.content % 256, if a.is_deleted then 1 else 0]))) := by
      simp [binaryPack]
    have hd8 : (binaryPack a).drop 8 = u64LE a.id.clock ++
        (u64LE a.origin.client_id ++ (u64LE a.origin.clock ++
          [a.content % 256, if a.is_deleted then 1 else 0])) := by
      rw [hb]; exact List.drop_left' (hu64len _)
    have hd16 : (binaryPack a).drop 16 = u64LE a.origin.client_id ++
        (u64LE a.origin.clock ++
          [a.content % 256, if a.is_deleted then 1 else 0]) := by
      rw [show (16 : Nat) = 8 + 8 by norm_num, ← List.drop_drop, hd8]
      exact List.drop_left' (hu64len _)
    have hd24 : (binaryPack a).drop 24 = u64LE a.origin.clock ++
        [a.content % 256, if a.is_deleted then 1 else 0] := by
      rw [show (24 : Nat) = 16 + 8 by norm_num, ← List.drop_drop, hd16]
      exact List.drop_left' (hu64len _)
    have hd32 : (binaryPack a).drop 32 =
        [a.content % 256, if a.is_deleted then 1 else 0] := by
      rw [show (32 : Nat) = 24 + 8 by norm_num, ← List.drop_drop, hd24]
      exact List.drop_left' (hu64len _)
    have hd33 : (binaryPack a).drop 33 =
        [if a.is_deleted then 1 else 0] := by
      rw [show (33 : Nat) = 32 + 1 by norm_num, ← List.drop_drop, hd32]
      rfl
    have hr0 : rdU64 (binaryPack a) 0 = a.id.client_id := by
      unfold rdU64
      rw [List.drop_zero, hb]
      exact rdLE_leBytes 8 _ _ (by norm_num; omega)
    have hr8 : rdU64 (binaryPack a) 8 = a.id.clock := by
      unfold rdU64
      rw [hd8]
      exact rdLE_leBytes 8 _ _ (by norm_num; omega)
    have hr16 : rdU64 (binaryPack a) 16 = a.origin.client_id := by
      unfold rdU64
      rw [hd16]
      exact rdLE_leBytes 8 _ _ (by norm_num; omega)
    have hr24 : rdU64 (binaryPack a) 24 = a.origin.clock := by
      unfold rdU64
      rw [hd24]
      exact rdLE_leBytes 8 _ _ (by norm_num; omega)
    have hc32 : (binaryPack a).getD 32 0 = a.content := by
      rw [getD_eq_drop_headD, hd32]
      exact hcontent
    have hc33 : (binaryPack a).getD 33 0 = if a.is_deleted then 1 else 0 := by
      rw [getD_eq_drop_headD, hd33]
      rfl
    unfold binaryUnpack
    rw [if_neg (by omega), hr0, hr8, hr16, hr24, hc32, hc33, hdel]
  · -- VLE codec
    have hv : vlePack a = encodeUInt64 a.id.client_id ++
        (encodeUInt64 a.id.clock ++ (encodeUInt64 a.origin.client_id ++
          (encodeUInt64 a.origin.clock ++
            [a.content % 256, if a.is_deleted then 1 else 0]))) := by
      simp [vlePack]
    set e1 := encodeUInt64 a.id.client_id with he1
    set e2 := encodeUInt64 a.id.clock with he2
    set e3 := encodeUInt64 a.origin.client_id with he3
    set e4 := encodeUInt64 a.origin.clock with he4
    have hdec1 : decodeUInt64 (vlePack a) = some (a.id.client_id, e1.length) := by
      rw [hv]
      exact decodeUInt64_encodeUInt64 _ _ h1
    have hdr1 : (vlePack a).drop e1.length = e2 ++ (e3 ++ (e4 ++
        [a.content % 256, if a.is_deleted then 1 else 0])) := by
      rw [hv]; exact List.drop_left' rfl
    have hdec2 : decodeUInt64 ((vlePack a).drop e1.length)
        = some (a.id.clock, e2.length) := by
      rw [hdr1]
      exact decodeUInt64_encodeUInt64 _ _ h2
    have hdr2 : (vlePack a).drop (e1.length + e2.length) = e3 ++ (e4 ++
        [a.content % 256, if a.is_deleted then 1 else 0]) := by
      rw [← List.drop_drop, hdr1]
      exact List.drop_left' rfl
    have hdec3 : decodeUInt64 ((vlePack a).drop (e1.length + e2.length))
        = some (a.origin.client_id, e3.length) := by
      rw [hdr2]
      exact decodeUInt64_encodeUInt64 _ _ h3
    have hdr3 : (vlePack a).drop (e1.length + e2.length + e3.length)
        = e4 ++ [a.content % 256, if a.is_deleted then 1 else 0] := by
      rw [← List.drop_drop, hdr2]
      exact List.drop_left' rfl
    have hdec4 : decodeUInt64
        ((vlePack a).drop (e1.length + e2.length + e3.length))
        = some (a.origin.clock, e4.length) := by
      rw [hdr3]
      exact decodeUInt64_encodeUInt64 _ _ h4
    have hdr4 : (vlePack a).drop
        (e1.length + e2.length + e3.length + e4.length)
        = [a.content % 256, if a.is_deleted then 1 else 0] := by
      rw [← List.drop_drop, hdr3]
      exact List.drop_left' rfl
    have hlenv : (vlePack a).length
        = e1.length + e2.length + e3.length + e4.length + 2 := by
      rw [hv]
      simp [List.length_append]
      omega
    have hcv : (vlePack a).getD
        (e1.length + e2.length + e3.length + e4.length) 0 = a.content := by
      rw [getD_eq_drop_headD, hdr4]
      exact hcontent
    have hdv : (vlePack a).getD
        (e1.length + e2.length + e3.length + e4.length + 1) 0
        = if a.is_deleted then 1 else 0 := by
      rw [getD_eq_drop_headD, show e1.length + e2.length + e3.length +
        e4.length + 1 = (e1.length + e2.length + e3.length + e4.length) + 1
        from rfl, ← List.drop_drop, hdr4]
      rfl
    unfold vleUnpack
    simp only [hdec1, hdec2, hdec3, hdec4]
    rw [if_neg (by omega)]
    rw [hcv, hdv, hdel, hlenv]

/-- C9 witness: the round trip evaluated at the concrete atom
`((3,300),(1,129),'A',deleted)`. -/
theorem C9_codec_roundtrip_witness :
    (⟨⟨3, 300⟩, ⟨1, 129⟩, 65, true⟩ : Atom).id.client_id < 2 ^ 64 ∧
      binaryUnpack (binaryPack ⟨⟨3, 300⟩, ⟨1, 129⟩, 65, true⟩)
          = some ⟨⟨3, 300⟩, ⟨1, 129⟩, 65, true⟩ ∧
        (binaryPack (⟨⟨3, 300⟩, ⟨1, 129⟩, 65, true⟩ : Atom)).length = 34 ∧
        vleUnpack (vlePack ⟨⟨3, 300⟩, ⟨1, 129⟩, 65, true⟩)
          = some (⟨⟨3, 300⟩, ⟨1, 129⟩, 65, true⟩,
            (vlePack (⟨⟨3, 300⟩, ⟨1, 129⟩, 65, true⟩ : Atom)).length) :=
  ⟨by norm_num, C9_codec_roundtrip ⟨⟨3, 300⟩, ⟨1, 129⟩, 65, true⟩
    (by norm_num) (by norm_num) (by norm_num) (by norm_num) (by norm_num)⟩

/-! ### Claim C8: four-valued comparison -/

/-- C8 counterexample: the concurrent pair `{1:1}` versus `{2:1}` and
the equal pair `{1:1}` versus `{1:1}` both make `compare` return the
same value `0` — EQUAL and CONCURRENT are not distinguishable
outcomes, so the comparison is not four-valued. -/
theorem C8_compare_cex :
    vcCompare ⟨[(1, 1)], 1⟩ ⟨[(2, 1)], 2⟩ = 0 ∧
      vcCompare ⟨[(1, 1)], 1⟩ ⟨[(1, 1)], 2⟩ = 0 ∧
      vcGet ⟨[(1, 1)], 1⟩ 1 ≠ vcGet (⟨[(2, 1)], 2⟩ : VectorClock) 1 := by
  decide

/-- C8 amended: `compare` is three-valued over the union of keys:
`-1` iff all entries of `this` are `≤` with at least one `<` (BEFORE),
`1` in the symmetric case (AFTER), and `0` otherwise — the latter
covering both the equal and the concurrent case, which are returned
identically. -/
theorem C8_compare_amended (a b : VectorClock) :
    (vcCompare a b = -1 ↔
        ((∀ p, vcGet a p ≤ vcGet b p) ∧ ∃ p, vcGet a p < vcGet b p)) ∧
      (vcCompare a b = 1 ↔
        ((∀ p, vcGet b p ≤ vcGet a p) ∧ ∃ p, vcGet b p < vcGet a p)) ∧
      (vcCompare a b = 0 ↔
        ((∃ p, vcGet a p < vcGet b p) ↔ ∃ p, vcGet b p < vcGet a p)) := by
  have hfst := vcFlags_fst_iff a b
  have hsnd := vcFlags_snd_iff a b
  have hcontra : ∀ x y : VectorClock,
      (¬∃ p, vcGet y p < vcGet x p) → ∀ p, vcGet x p ≤ vcGet y p := by
    intro x y hne p
    by_contra hc
    exact hne ⟨p, by omega⟩
  cases h1 : (vcFlags a b).1 <;> cases h2 : (vcFlags a b).2 <;>
    rw [h1] at hfst <;> rw [h2] at hsnd
  case false.false =>
    have hv : vcCompare a b = 0 := by simp [vcCompare, h1, h2]
    have hA : ¬∃ p, vcGet a p < vcGet b p := by
      simp at hfst
      rintro ⟨p, hp⟩
      exact absurd hp (by have := hfst p; omega)
    have hB : ¬∃ p, vcGet b p < vcGet a p := by
      simp at hsnd
      rintro ⟨p, hp⟩
      exact absurd hp (by have := hsnd p; omega)
    rw [hv]
    refine ⟨iff_of_false (by decide) (fun h => hA h.2),
      iff_of_false (by decide) (fun h => hB h.2),
      iff_of_true rfl (iff_of_false hA hB)⟩
  case false.true =>
    have hv : vcCompare a b = 1 := by simp [vcCompare, h1, h2]
    have hA : ¬∃ p, vcGet a p < vcGet b p := by
      simp at hfst
      rintro ⟨p, hp⟩
      exact absurd hp (by have := hfst p; omega)
    have hB : ∃ p, vcGet b p < vcGet a p := hsnd.mp rfl
    rw [hv]
    refine ⟨iff_of_false (by decide) (fun h => hA h.2),
      iff_of_true rfl ⟨hcontra b a hA, hB⟩,
      iff_of_false (by decide) (fun h => hA (h.mpr hB))⟩
  case true.false =>
    have hv : vcCompare a b = -1 := by simp [vcCompare, h1, h2]
    have hA : ∃ p, vcGet a p < vcGet b p := hfst.mp rfl
    have hB : ¬∃ p, vcGet b p < vcGet a p := by
      simp at hsnd
      rintro ⟨p, hp⟩
      exact absurd hp (by have := hsnd p; omega)
    rw [hv]
    refine ⟨iff_of_true rfl ⟨hcontra a b hB, hA⟩,
      iff_of_false (by decide) (fun h => hB h.2),
      iff_of_false (by decide) (fun h => hB (h.mp hA))⟩
  case true.true =>
    have hv : vcCompare a b = 0 := by simp [vcCompare, h1, h2]
    have hA : ∃ p, vcGet a p < vcGet b p := hfst.mp rfl
    have hB : ∃ p, vcGet b p < vcGet a p := hsnd.mp rfl
    rw [hv]
    refine ⟨iff_of_false (by decide) ?_, iff_of_false (by decide) ?_,
      iff_of_true rfl (iff_of_true hA hB)⟩
    · rintro ⟨hall, _⟩
      obtain ⟨p, hp⟩ := hB
      exact absurd hp (by have := hall p; omega)
    · rintro ⟨hall, _⟩
      obtain ⟨p, hp⟩ := hA
      exact absurd hp (by have := hall p; omega)

/-! ### Claim C1: predecessor choice of localInsert -/

/-- C1 counterexample: after building the two-character document "AB"
with `local_insert(0,'A')` and `local_insert(1,'B')`, the call
`local_insert(1,'C')` sets the new atom's origin to the id `(1,3)` of
`B`, the atom at visible index `1` — not to the id `(1,1)` of `A`, the
atom at visible index `i-1 = 0` required by the claim. -/
theorem C1_insert_predecessor_cex :
    (localInsert (runOps 1 [.linsert 0 65, .linsert 1 66]) 1 67).1.origin
        = ⟨1, 3⟩ ∧
      ((runOps 1 [.linsert 0 65, .linsert 1 66]).atoms.filter
        (fun a => isVisible a)).map (fun a => a.id)
        = [⟨1, 1⟩, ⟨1, 3⟩] := by
  decide

/-- The predecessor that `localInsert(i, _)` actually selects, stated
declaratively: the head when `i = 0`; otherwise the atom at visible
index `i` of the tail when it exists; otherwise the last atom of the
whole list (which may be a tombstone). -/
def insertPredecessor (h0 : Atom) (rest : List Atom) (i : Nat) : Atom :=
  let vis := rest.filter (fun a => isVisible a)
  if i = 0 then h0
  else if i < vis.length then vis.getD i sentinelAtom
  else (h0 :: rest).getLastD sentinelAtom

/-- The predecessor walk over atoms of nonzero content: it stops at the
atom at visible index `steps` when it exists, else clamps to the last
atom of the list. -/
theorem walkGo_visible_spec (rest : List Atom) :
    ∀ (cur : Atom) (steps : Nat), cur.content ≠ 0 →
      (∀ a ∈ rest, a.content ≠ 0) →
      walkGo cur rest steps =
        (if steps < ((cur :: rest).filter (fun a => isVisible a)).length
         then ((cur :: rest).filter (fun a => isVisible a)).getD steps
           sentinelAtom
         else (cur :: rest).getLastD sentinelAtom) := by
  induction rest with
  | nil =>
    intro cur steps hcur _
    cases hv : isVisible cur with
    | true =>
      cases steps with
      | zero =>
        rw [walkGo, if_pos ⟨hv, rfl⟩]
        simp [List.filter_cons, hv]
      | succ j =>
        rw [walkGo, if_neg (by simp), if_neg (by simp [hcur])]
        simp [List.filter_cons, hv, List.getLastD]
    | false =>
      rw [walkGo, if_neg (by simp [hv]), if_neg (by simp [hcur])]
      simp [List.filter_cons, hv, List.getLastD]
  | cons c cs ih =>
    intro cur steps hcur hrest
    have hc : c.content ≠ 0 := hrest c (by simp)
    have hcs : ∀ a ∈ cs, a.content ≠ 0 := fun a ha => hrest a (by simp [ha])
    have hlast : (cur :: c :: cs).getLastD sentinelAtom
        = (c :: cs).getLastD sentinelAtom := by
      rw [List.getLastD_cons sentinelAtom cur (c :: cs),
        List.getLastD_cons cur c cs, List.getLastD_cons sentinelAtom c cs]
    cases hv : isVisible cur with
    | true =>
      cases steps with
      | zero =>
        rw [walkGo, if_pos ⟨hv, rfl⟩]
        simp [List.filter_cons, hv]
      | succ j =>
        rw [walkGo, if_neg (by simp), if_neg (by simp [hcur]), hv]
        show walkGo c cs j = _
        rw [ih c j hc hcs, hlast]
        simp only [List.filter_cons, hv, if_true, List.length_cons,
          Nat.succ_lt_succ_iff, List.getD_cons_succ, ite_true]
    | false =>
      rw [walkGo, if_neg (by simp [hv]), if_neg (by simp [hcur]), hv]
      show walkGo c cs steps = _
      rw [ih c steps hc hcs, hlast]
      simp [List.filter_cons, hv]

/-- The full predecessor walk of `localInsert` from a zero-content head
(the sentinel) over nonzero-content atoms equals the declarative
predecessor. -/
theorem walk_parent_spec (h0 : Atom) (rest : List Atom) (i : Nat)
    (hsent : h0.content = 0) (hrest : ∀ a ∈ rest, a.content ≠ 0) :
    walkGo h0 rest i = insertPredecessor h0 rest i := by
  have hvis0 : isVisible h0 = false := by simp [isVisible, hsent]
  cases i with
  | zero =>
    rw [walkGo, if_neg (by simp [hvis0]), if_pos ⟨hsent, by simp [hvis0]⟩,
      insertPredecessor]
    simp
  | succ j =>
    rw [walkGo, if_neg (by simp [hvis0]), if_neg (by simp [hvis0]), hvis0]
    cases rest with
    | nil =>
      show h0 = insertPredecessor h0 [] (j + 1)
      rw [insertPredecessor]
      simp [List.getLastD]
    | cons c cs =>
      show walkGo c cs (j + 1) = insertPredecessor h0 (c :: cs) (j + 1)
      rw [walkGo_visible_spec cs c (j + 1) (hrest c (by simp))
        (fun a ha => hrest a (by simp [ha])), insertPredecessor]
      have hlast : (h0 :: c :: cs).getLastD sentinelAtom
          = (c :: cs).getLastD sentinelAtom := by
        rw [List.getLastD_cons sentinelAtom h0 (c :: cs),
          List.getLastD_cons h0 c cs, List.getLastD_cons sentinelAtom c cs]
      simp only [if_neg (Nat.succ_ne_zero j), hlast]

/-- C1 amended: `local_insert(i, c)` ticks both clocks, then chooses as
predecessor `P` the sentinel head when `i = 0`; otherwise the atom
currently at visible index `i` (not `i-1`) when `i` is below the
visible length; otherwise the last atom of the whole sequence (which
may be a tombstone rather than the last visible atom) — and emits an
atom with `origin = P.id` before running the common merge path. Stated
for any state whose head is the zero-content sentinel and whose other
atoms carry nonzero content bytes. -/
theorem C1_insert_predecessor_amended (s : Sequence) (i c : Nat)
    (h0 : Atom) (rest : List Atom) (hatoms : s.atoms = h0 :: rest)
    (hsent : h0.content = 0) (hrest : ∀ a ∈ rest, a.content ≠ 0) :
    (localInsert s i c).1 =
      ⟨⟨s.my_client_id, s.clock + 1⟩, (insertPredecessor h0 rest i).id, c,
        false⟩ := by
  unfold localInsert
  simp only [hatoms]
  rw [walk_parent_spec h0 rest i hsent hrest]

/-- C1 amended witness: the predecessor of `local_insert(1,'C')` in the
document "AB" evaluated through the declarative description. -/
theorem C1_insert_predecessor_amended_witness :
    ((runOps 1 [.linsert 0 65, .linsert 1 66]).atoms
        = sentinelAtom :: [⟨⟨1, 1⟩, ⟨0, 0⟩, 65, false⟩,
          ⟨⟨1, 3⟩, ⟨1, 1⟩, 66, false⟩] ∧
      sentinelAtom.content = 0 ∧
      (∀ a ∈ [(⟨⟨1, 1⟩, ⟨0, 0⟩, 65, false⟩ : Atom),
        ⟨⟨1, 3⟩, ⟨1, 1⟩, 66, false⟩], a.content ≠ 0)) ∧
      (localInsert (runOps 1 [.linsert 0 65, .linsert 1 66]) 1 67).1 =
        ⟨⟨(runOps 1 [.linsert 0 65, .linsert 1 66]).my_client_id,
            (runOps 1 [.linsert 0 65, .linsert 1 66]).clock + 1⟩,
          (insertPredecessor sentinelAtom
            [⟨⟨1, 1⟩, ⟨0, 0⟩, 65, false⟩, ⟨⟨1, 3⟩, ⟨1, 1⟩, 66, false⟩] 1).id,
          67, false⟩ :=
  ⟨⟨by decide, by decide, by decide⟩,
    C1_insert_predecessor_amended (runOps 1 [.linsert 0 65, .linsert 1 66])
      1 67 sentinelAtom
      [⟨⟨1, 1⟩, ⟨0, 0⟩, 65, false⟩, ⟨⟨1, 3⟩, ⟨1, 1⟩, 66, false⟩]
      (by decide) (by decide) (by decide)⟩

/-! ### Scaffolding: which state components each helper touches -/

/-- Copy only the orphan-buffer components of `x` onto `base`. -/
def withOrphans (base x : Sequence) : Sequence :=
  { base with
    pending_orphans := x.pending_orphans
    total_orphan_count := x.total_orphan_count }

/-- Copy only the atom-list components of `x` onto `base`. -/
def withAtoms (base x : Sequence) : Sequence :=
  { base with
    atoms := x.atoms
    tombstone_count := x.tombstone_count }

/-- A fold whose step only rewrites the components selected by `U`
rewrites only those components overall. -/
theorem foldl_shape {β : Type} (f : Sequence → β → Sequence)
    (U : Sequence → Sequence → Sequence)
    (hU1 : ∀ s, U s s = s)
    (hU0 : ∀ s x y, U (U s x) y = U s y)
    (hf : ∀ st e, f st e = U st (f st e)) :
    ∀ (l : List β) (st : Sequence), l.foldl f st = U st (l.foldl f st) := by
  intro l
  induction l with
  | nil => intro st; exact (hU1 st).symm
  | cons e es ih =>
    intro st
    have h2 : ∀ Y, U (f st e) Y = U st Y := by
      intro Y
      conv_lhs => rw [hf st e]
      rw [hU0]
    calc (e :: es).foldl f st
        = U (f st e) (es.foldl f (f st e)) := ih (f st e)
      _ = U st (es.foldl f (f st e)) := h2 _

/-- One eviction step only rewrites the orphan buffer. -/
theorem evictStep_shape (st : Sequence) (e : Nat × OpID) :
    evictStep st e = withOrphans st (evictStep st e) := by
  unfold evictStep withOrphans
  cases h : orphFind st.pending_orphans e.2
  · simp only [h]
  · simp only [h]
    split
    · rfl
    · split
      · rfl
      · rfl

/-- `evictOldOrphans` only rewrites the orphan buffer. -/
theorem evictOldOrphans_shape (s : Sequence) :
    evictOldOrphans s = withOrphans s (evictOldOrphans s) := by
  unfold evictOldOrphans
  by_cases h : s.pending_orphans.isEmpty
  · simp only [h, if_true]
    rfl
  · simp only [h, if_false]
    exact foldl_shape evictStep withOrphans (fun _ => rfl) (fun _ _ _ => rfl)
      evictStep_shape _ s

/-- One tombstone removal only rewrites the atom list and its counter. -/
theorem removeTombstones_shape (s : Sequence) (ids : List OpID) :
    removeTombstones s ids = withAtoms s (removeTombstones s ids) := by
  unfold removeTombstones
  apply foldl_shape _ withAtoms (fun _ => rfl) (fun _ _ _ => rfl)
  intro st e
  cases h : st.atoms.findIdx? (fun a => a.id = e) <;> simp only [h] <;> rfl

/-- Local-age GC only rewrites the atom list and its counter. -/
theorem garbageCollectLocal_shape (s : Sequence) (m : Nat) :
    (garbageCollectLocal s m).1 = withAtoms s (garbageCollectLocal s m).1 := by
  unfold garbageCollectLocal
  exact removeTombstones_shape s _

/-! ### Scaffolding: vector-clock domination through the merge -/

/-- The entry list holds key `k` with a value at least `c`. -/
def vcDominates (k c : Nat) (vc : VectorClock) : Prop :=
  ∃ e : Nat × Nat, vc.entries.find? (fun x => x.1 = k) = some e ∧ c ≤ e.2

/-- `update` installs its own key at a value at least its argument
(entry-list level). -/
theorem vcUpdateEntries_find_self (k t : Nat) :
    ∀ l : List (Nat × Nat), ∃ e,
      (vcUpdateEntries l k t).find? (fun x => x.1 = k) = some e ∧ t ≤ e.2 := by
  intro l
  induction l with
  | nil =>
    refine ⟨(k, t), ?_, le_refl t⟩
    simp [vcUpdateEntries, List.find?]
  | cons e es ih =>
    by_cases he : e.1 = k
    · refine ⟨(k, max e.2 t), ?_, le_max_right _ _⟩
      simp [vcUpdateEntries, he, List.find?]
    · obtain ⟨e1, hf, ht⟩ := ih
      refine ⟨e1, ?_, ht⟩
      simp [vcUpdateEntries, he, List.find?, hf]

/-- `update` never lowers any dominated entry (entry-list level). -/
theorem vcUpdateEntries_find_pres (k t k0 c0 : Nat) :
    ∀ (l : List (Nat × Nat)) (e0 : Nat × Nat),
      l.find? (fun x => x.1 = k0) = some e0 → c0 ≤ e0.2 →
      ∃ e, (vcUpdateEntries l k t).find? (fun x => x.1 = k0) = some e ∧
        c0 ≤ e.2 := by
  intro l
  induction l with
  | nil =>
    intro e0 hf _
    simp at hf
  | cons e es ih =>
    intro e0 hf ht
    by_cases he : e.1 = k
    · by_cases he0 : e.1 = k0
      · have hee : e = e0 := by
          rw [List.find?_cons_of_pos _ (by simpa using he0)] at hf
          exact Option.some_inj.mp hf
        have hk : k = k0 := by rw [← he, he0]
        refine ⟨(k, max e.2 t), ?_, ?_⟩
        · simp [vcUpdateEntries, he, List.find?, hk]
        · have hce : c0 ≤ e.2 := by rw [hee]; exact ht
          exact le_trans hce (le_max_left _ _)
      · have hf1 : es.find? (fun x => x.1 = k0) = some e0 := by
          rw [List.find?_cons_of_neg _ (by simpa using he0)] at hf
          exact hf
        have hkk0 : ¬k = k0 := fun hkk => he0 (by rw [he, hkk])
        refine ⟨e0, ?_, ht⟩
        simp [vcUpdateEntries, he, List.find?, hkk0, hf1]
    · by_cases he0 : e.1 = k0
      · have hee : e = e0 := by
          rw [List.find?_cons_of_pos _ (by simpa using he0)] at hf
          exact Option.some_inj.mp hf
        have hk0k : ¬k0 = k := fun hq => he (by rw [he0, hq])
        refine ⟨e0, ?_, ht⟩
        rw [← hee]
        simp [vcUpdateEntries, he, List.find?, he0, hk0k]
      · have hf1 : es.find? (fun x => x.1 = k0) = some e0 := by
          rw [List.find?_cons_of_neg _ (by simpa using he0)] at hf
          exact hf
        obtain ⟨e1, hg, hgt⟩ := ih e0 hf1 ht
        refine ⟨e1, ?_, hgt⟩
        simp [vcUpdateEntries, he, List.find?, he0, hg]

/-- A dominated `update` is the identity (entry-list level). -/
theorem vcUpdateEntries_dominated_id (k t : Nat) :
    ∀ (l : List (Nat × Nat)) (e0 : Nat × Nat),
      l.find? (fun x => x.1 = k) = some e0 → t ≤ e0.2 →
      vcUpdateEntries l k t = l := by
  intro l
  induction l with
  | nil =>
    intro e0 hf _
    simp at hf
  | cons e es ih =>
    intro e0 hf ht
    by_cases he : e.1 = k
    · have hee : e = e0 := by
        rw [List.find?_cons_of_pos _ (by simpa using he)] at hf
        exact Option.some_inj.mp hf
      have hmax : max e.2 t = e.2 := max_eq_left (by rw [hee]; exact ht)
      show (if e.1 = k then (k, max e.2 t) :: es else
        e :: vcUpdateEntries es k t) = e :: es
      rw [if_pos he, hmax, ← he]
    · have hf1 : es.find? (fun x => x.1 = k) = some e0 := by
        rw [List.find?_cons_of_neg _ (by simpa using he)] at hf
        exact hf
      show (if e.1 = k then (k, max e.2 t) :: es else
        e :: vcUpdateEntries es k t) = e :: es
      rw [if_neg he, ih e0 hf1 ht]

/-- `update` installs its own key at a value at least its argument. -/
theorem vcUpdate_dominates_self (vc : VectorClock) (k t : Nat) :
    vcDominates k t (vcUpdate vc k t) :=
  vcUpdateEntries_find_self k t vc.entries

/-- `update` never lowers any dominated entry. -/
theorem vcUpdate_dominates_pres (vc : VectorClock) (k t k0 c0 : Nat)
    (h : vcDominates k0 c0 vc) : vcDominates k0 c0 (vcUpdate vc k t) := by
  obtain ⟨e0, hf, ht⟩ := h
  exact vcUpdateEntries_find_pres k t k0 c0 vc.entries e0 hf ht

/-- A dominated `update` is the identity on the whole clock. -/
theorem vcUpdate_dominated_id (vc : VectorClock) (k t : Nat)
    (h : vcDominates k t vc) : vcUpdate vc k t = vc := by
  obtain ⟨e0, hf, ht⟩ := h
  unfold vcUpdate
  rw [vcUpdateEntries_dominated_id k t vc.entries e0 hf ht]

/-- Eviction leaves the vector clock untouched. -/
theorem evict_vclock (s : Sequence) :
    (evictOldOrphans s).vclock = s.vclock := by
  conv_lhs => rw [evictOldOrphans_shape s]
  rfl

/-- Local-age GC leaves the vector clock untouched. -/
theorem gclocal_vclock (s : Sequence) (m : Nat) :
    ((garbageCollectLocal s m).1).vclock = s.vclock := by
  conv_lhs => rw [garbageCollectLocal_shape s m]
  rfl

/-- Domination survives one merge body, given it survives the drain and
already holds after the entry `update`. -/
theorem remoteMergeCore_vcDominates (k0 c0 : Nat)
    (drain : Sequence → OpID → Sequence)
    (hd : ∀ s id, vcDominates k0 c0 s.vclock →
      vcDominates k0 c0 (drain s id).vclock)
    (s : Sequence) (a : Atom)
    (h1 : vcDominates k0 c0 (vcUpdate s.vclock a.id.client_id a.id.clock)) :
    vcDominates k0 c0 (remoteMergeCore drain s a).vclock := by
  simp only [remoteMergeCore]
  split
  · exact h1
  · split
    · -- orphan path
      split
      · simp only [evict_vclock]
        exact h1
      · exact h1
    · -- insert path
      split <;> split <;>
        first
          | (simp only [gclocal_vclock]; exact hd _ _ h1)
          | exact hd _ _ h1

/-- Domination survives `remoteMergeF` at any fuel. -/
theorem mergeF_vcDominates_pres (k0 c0 : Nat) :
    ∀ (fuel : Nat) (s : Sequence) (a : Atom),
      vcDominates k0 c0 s.vclock →
      vcDominates k0 c0 (remoteMergeF fuel s a).vclock := by
  intro fuel
  induction fuel with
  | zero =>
    intro s a h
    exact remoteMergeCore_vcDominates k0 c0 _ (fun _ _ h => h) s a
      (vcUpdate_dominates_pres _ _ _ _ _ h)
  | succ fuel ih =>
    intro s a h
    refine remoteMergeCore_vcDominates k0 c0 _ ?_ s a
      (vcUpdate_dominates_pres _ _ _ _ _ h)
    intro s1 id h1
    simp only [checkPendingOrphansWith]
    split
    · exact h1
    · have hfold : ∀ (l : List Atom) (st : Sequence),
          vcDominates k0 c0 st.vclock →
          vcDominates k0 c0 (l.foldl (remoteMergeF fuel) st).vclock := by
        intro l
        induction l with
        | nil => exact fun st h => h
        | cons c cs ihl =>
          intro st h
          exact ihl _ (ih st c h)
      exact hfold _ _ h1

/-- After any merge of `a`, the clock entry of `a`'s peer dominates
`a`'s clock. -/
theorem mergeF_vcDominates_self :
    ∀ (fuel : Nat) (s : Sequence) (a : Atom),
      vcDominates a.id.client_id a.id.clock (remoteMergeF fuel s a).vclock := by
  intro fuel
  cases fuel with
  | zero =>
    intro s a
    exact remoteMergeCore_vcDominates _ _ _ (fun _ _ h => h) s a
      (vcUpdate_dominates_self _ _ _)
  | succ fuel =>
    intro s a
    refine remoteMergeCore_vcDominates _ _ _ ?_ s a
      (vcUpdate_dominates_self _ _ _)
    intro s1 id h1
    simp only [checkPendingOrphansWith]
    split
    · exact h1
    · have hfold : ∀ (l : List Atom) (st : Sequence),
          vcDominates a.id.client_id a.id.clock st.vclock →
          vcDominates a.id.client_id a.id.clock
            (l.foldl (remoteMergeF fuel) st).vclock := by
        intro l
        induction l with
        | nil => exact fun st h => h
        | cons c cs ihl =>
          intro st h
          exact ihl _ (mergeF_vcDominates_pres _ _ fuel st c h)
      exact hfold _ _ h1

/-! ### Claim C5: idempotence of remoteMerge -/

/-- C5 amended: when `A` is indexed after `merge(S, A)` (it was
inserted or already present, rather than orphan-buffered), the second
merge of `A` changes nothing except the Lamport clock, which
`LamportClock::merge` advances to `max(clock, A.id.clock) + 1` before
the duplicate check short-circuits. -/
theorem C5_merge_idempotent_amended (S : Sequence) (A : Atom)
    (h : (remoteMerge S A).atoms.any (fun b => b.id = A.id) = true) :
    remoteMerge (remoteMerge S A) A =
      { (remoteMerge S A) with
        clock := max (remoteMerge S A).clock A.id.clock + 1 } := by
  have hP : vcDominates A.id.client_id A.id.clock (remoteMerge S A).vclock :=
    mergeF_vcDominates_self _ S A
  set S1 := remoteMerge S A with hS1
  unfold remoteMerge
  simp only [remoteMergeF, remoteMergeCore]
  rw [if_pos h, vcUpdate_dominated_id S1.vclock _ _ hP]

/-- C5 amended witness: a remote atom whose origin is the sentinel is
indexed after the first merge. -/
theorem C5_merge_idempotent_amended_witness :
    ((remoteMerge (Sequence.init 1) ⟨⟨2, 1⟩, ⟨0, 0⟩, 66, false⟩).atoms.any
        (fun b => b.id = (⟨⟨2, 1⟩, ⟨0, 0⟩, 66, false⟩ : Atom).id) = true) ∧
      remoteMerge (remoteMerge (Sequence.init 1) ⟨⟨2, 1⟩, ⟨0, 0⟩, 66, false⟩)
          ⟨⟨2, 1⟩, ⟨0, 0⟩, 66, false⟩ =
        { (remoteMerge (Sequence.init 1) ⟨⟨2, 1⟩, ⟨0, 0⟩, 66, false⟩) with
          clock := max (remoteMerge (Sequence.init 1)
            ⟨⟨2, 1⟩, ⟨0, 0⟩, 66, false⟩).clock
            (⟨⟨2, 1⟩, ⟨0, 0⟩, 66, false⟩ : Atom).id.clock + 1 } :=
  ⟨by decide, C5_merge_idempotent_amended (Sequence.init 1)
    ⟨⟨2, 1⟩, ⟨0, 0⟩, 66, false⟩ (by decide)⟩

/-- C5 counterexample: merging the same atom twice does not reproduce
the same state, because `LamportClock::merge` advances the scalar clock
(`max+1`) before the duplicate check: the second merge moves the clock
from 2 to 3. -/
theorem C5_merge_idempotent_cex :
    remoteMerge (remoteMerge (Sequence.init 1) ⟨⟨2, 1⟩, ⟨0, 0⟩, 66, false⟩)
        ⟨⟨2, 1⟩, ⟨0, 0⟩, 66, false⟩
      ≠ remoteMerge (Sequence.init 1) ⟨⟨2, 1⟩, ⟨0, 0⟩, 66, false⟩ ∧
    (remoteMerge (remoteMerge (Sequence.init 1) ⟨⟨2, 1⟩, ⟨0, 0⟩, 66, false⟩)
        ⟨⟨2, 1⟩, ⟨0, 0⟩, 66, false⟩).clock = 3 ∧
    (remoteMerge (Sequence.init 1) ⟨⟨2, 1⟩, ⟨0, 0⟩, 66, false⟩).clock = 2 := by
  decide

/-! ### Claim C7: out-of-range localDelete -/

/-- C7 counterexample: `local_delete(0)` on an empty document returns
the sentinel id but still ticks the Lamport clock (0 to 1) and the
local vector-clock entry (0 to 1), so the state is not unchanged. -/
theorem C7_out_of_range_delete_cex :
    (localDelete (Sequence.init 1) 0).1 = sentinelId ∧
      (localDelete (Sequence.init 1) 0).2 ≠ Sequence.init 1 ∧
      (localDelete (Sequence.init 1) 0).2.clock = 1 ∧
      vcGet (localDelete (Sequence.init 1) 0).2.vclock 1 = 1 ∧
      (Sequence.init 1).clock = 0 := by
  decide

/-- The visible-index walk finds nothing when the index is at least the
number of visible atoms. -/
theorem findVisibleIdx_none (l : List Atom) :
    ∀ i pos : Nat, (l.filter (fun a => isVisible a)).length ≤ i →
      findVisibleIdx l i pos = none := by
  induction l with
  | nil => intro i pos _; rfl
  | cons a t ih =>
    intro i pos h
    cases ha : isVisible a with
    | false =>
      rw [findVisibleIdx, if_neg (by simp [ha])]
      apply ih
      simpa [List.filter_cons, ha] using h
    | true =>
      have hlen : (t.filter (fun a => isVisible a)).length + 1 ≤ i := by
        simpa [List.filter_cons, ha] using h
      rw [findVisibleIdx, if_pos ha, if_neg (by omega)]
      exact ih (i - 1) (pos + 1) (by omega)

/-- C7 amended: an out-of-range `local_delete(i)` returns the sentinel
id and leaves the atoms, the tombstone counter, the orphan buffer and
the pending-delete set unchanged — but it does tick both the Lamport
clock and the caller's vector-clock entry, which happens before the
range check. -/
theorem C7_out_of_range_delete_amended (s : Sequence) (i : Nat)
    (h : (s.atoms.filter (fun a => isVisible a)).length ≤ i) :
    localDelete s i =
      (sentinelId,
        { s with clock := s.clock + 1, vclock := vcTick s.vclock }) := by
  unfold localDelete
  simp only [findVisibleIdx_none s.atoms i 0 h]

/-- C7 witness: deleting at index 0 of an empty document. -/
theorem C7_out_of_range_delete_amended_witness :
    ((Sequence.init 1).atoms.filter (fun a => isVisible a)).length ≤ 0 ∧
      localDelete (Sequence.init 1) 0 =
        (sentinelId,
          { (Sequence.init 1) with
            clock := (Sequence.init 1).clock + 1
            vclock := vcTick (Sequence.init 1).vclock }) :=
  ⟨by decide, C7_out_of_range_delete_amended (Sequence.init 1) 0 (by decide)⟩

/-! ### Claim C10: the sentinel head -/

/-- C10 counterexample: `remote_delete((0,0))` finds the sentinel in
the index, flips its tombstone flag and bumps the tombstone counter, so
the sentinel's deleted flag is not false in every reachable state. -/
theorem C10_sentinel_cex :
    (remoteDelete (Sequence.init 1) ⟨0, 0⟩).atoms
        = [⟨⟨0, 0⟩, ⟨0, 0⟩, 0, true⟩] ∧
      (remoteDelete (Sequence.init 1) ⟨0, 0⟩).tombstone_count = 1 := by
  decide

/-! ### Scaffolding: the origin-presence invariant -/

/-- Every atom's origin id occurs in the list. (The sentinel satisfies
this through itself, since its origin is its own id.) -/
def originsPresent (l : List Atom) : Prop :=
  ∀ a ∈ l, ∃ b ∈ l, b.id = a.origin

/-- Which operations are the two garbage-collection variants. -/
def isGCOp : SeqOp → Bool
  | .gcFrontier _ => true
  | .gcLocal _ => true
  | _ => false

/-- `insertAt` never empties a list. -/
theorem insertAt_ne_nil (l : List Atom) (p : Nat) (x : Atom) :
    insertAt l p x ≠ [] := by
  cases l with
  | nil => cases p <;> simp [insertAt]
  | cons a as => cases p <;> simp [insertAt]

/-- The inserted element is a member. -/
theorem mem_insertAt_self : ∀ (l : List Atom) (p : Nat) (x : Atom),
    x ∈ insertAt l p x := by
  intro l
  induction l with
  | nil => intro p x; cases p <;> simp [insertAt]
  | cons a as ih =>
    intro p x
    cases p with
    | zero => simp [insertAt]
    | succ p => simp [insertAt, ih p x]

/-- Old members stay members after insertion. -/
theorem mem_insertAt_of_mem : ∀ (l : List Atom) (p : Nat) (x a : Atom),
    a ∈ l → a ∈ insertAt l p x := by
  intro l
  induction l with
  | nil => intro p x a ha; simp at ha
  | cons b bs ih =>
    intro p x a ha
    cases p with
    | zero => simp [insertAt, ha]
    | succ p =>
      rcases List.mem_cons.mp ha with rfl | ha1
      · simp [insertAt]
      · simp [insertAt, ih p x a ha1]

/-- A member after insertion is the new element or an old member. -/
theorem mem_of_mem_insertAt : ∀ (l : List Atom) (p : Nat) (x a : Atom),
    a ∈ insertAt l p x → a = x ∨ a ∈ l := by
  intro l
  induction l with
  | nil =>
    intro p x a ha
    cases p <;> simp [insertAt] at ha <;> simp [ha]
  | cons b bs ih =>
    intro p x a ha
    cases p with
    | zero =>
      rcases List.mem_cons.mp ha with rfl | h1
      · exact Or.inl rfl
      · exact Or.inr h1
    | succ p =>
      rcases List.mem_cons.mp ha with rfl | h1
      · exact Or.inr (by simp)
      · rcases ih p x a h1 with h2 | h2
        · exact Or.inl h2
        · exact Or.inr (by simp [h2])

/-- Tombstoning keeps every id and origin in place. -/
theorem markDeletedAt_pairs : ∀ (l : List Atom) (p : Nat),
    (markDeletedAt l p).map (fun a => (a.id, a.origin))
      = l.map (fun a => (a.id, a.origin)) := by
  intro l
  induction l with
  | nil => intro p; rfl
  | cons a as ih =>
    intro p
    cases p with
    | zero => simp [markDeletedAt]
    | succ p => simp [markDeletedAt, ih p]

/-- Origin presence only depends on the id/origin pairs. -/
theorem originsPresent_of_pairs {l l1 : List Atom}
    (h : l1.map (fun a => (a.id, a.origin)) = l.map (fun a => (a.id, a.origin)))
    (hop : originsPresent l) : originsPresent l1 := by
  intro a ha
  have hpa : (a.id, a.origin) ∈ l.map (fun a => (a.id, a.origin)) := by
    rw [← h]
    exact List.mem_map_of_mem _ ha
  obtain ⟨a0, ha0, hpa0⟩ := List.mem_map.mp hpa
  obtain ⟨b, hb, hbid⟩ := hop a0 ha0
  have hpb : (b.id, b.origin) ∈ l1.map (fun a => (a.id, a.origin)) := by
    rw [h]
    exact List.mem_map_of_mem _ hb
  obtain ⟨b1, hb1, hpb1⟩ := List.mem_map.mp hpb
  refine ⟨b1, hb1, ?_⟩
  have h1 : b1.id = b.id := congrArg Prod.fst hpb1
  have h2 : a0.origin = a.origin := congrArg Prod.snd hpa0
  rw [h1, hbid, h2]

/-- Tombstoning never empties a list. -/
theorem markDeletedAt_ne_nil (l : List Atom) (p : Nat) (h : l ≠ []) :
    markDeletedAt l p ≠ [] := by
  cases l with
  | nil => exact absurd rfl h
  | cons a as => cases p <;> simp [markDeletedAt]

/-- The invariant carried through every non-GC operation: auto-GC is
off (the constructor default, and no listed operation changes the
config), the sequence is nonempty, and every origin is present. -/
def SeqInv (s : Sequence) : Prop :=
  s.auto_gc_enabled = false ∧ s.atoms ≠ [] ∧ originsPresent s.atoms

/-- Eviction leaves the atom list untouched. -/
theorem evict_atoms (s : Sequence) :
    (evictOldOrphans s).atoms = s.atoms := by
  conv_lhs => rw [evictOldOrphans_shape s]
  rfl

/-- Eviction leaves the GC flag untouched. -/
theorem evict_gcflag (s : Sequence) :
    (evictOldOrphans s).auto_gc_enabled = s.auto_gc_enabled := by
  conv_lhs => rw [evictOldOrphans_shape s]
  rfl

/-- The drain-then-auto-GC tail of the merge body preserves the
invariant (the auto-GC branch is unreachable since the flag is off). -/
theorem drain_gc_inv (drain : Sequence → OpID → Sequence)
    (hd : ∀ s id, SeqInv s → SeqInv (drain s id)) (s3 : Sequence) (id : OpID)
    (h3 : SeqInv s3) :
    SeqInv (if (drain s3 id).auto_gc_enabled = true ∧
        (drain s3 id).tombstone_threshold ≤ (drain s3 id).tombstone_count
      then (garbageCollectLocal (drain s3 id)
        (drain s3 id).min_age_threshold).1
      else drain s3 id) := by
  split
  · rename_i hcond
    exact absurd hcond.1 (by rw [(hd s3 id h3).1]; simp)
  · exact hd s3 id h3

/-- The merge body preserves the invariant, given the drain does. -/
theorem remoteMergeCore_inv (drain : Sequence → OpID → Sequence)
    (hd : ∀ s id, SeqInv s → SeqInv (drain s id)) :
    ∀ s a, SeqInv s → SeqInv (remoteMergeCore drain s a) := by
  intro s a h
  obtain ⟨hgc, hne, hop⟩ := h
  simp only [remoteMergeCore]
  split
  · exact ⟨hgc, hne, hop⟩
  · split
    · -- orphan path: atoms unchanged (possibly after eviction)
      split
      · exact ⟨by rw [evict_gcflag]; exact hgc,
          by rw [evict_atoms]; exact hne,
          by rw [evict_atoms]; exact hop⟩
      · exact ⟨hgc, hne, hop⟩
    · -- insert path
      rename_i parent_pos heq
      have horig : ∃ b ∈ s.atoms, b.id = a.origin := by
        obtain ⟨hlt, hp, -⟩ := List.findIdx?_eq_some_iff_getElem.mp heq
        exact ⟨s.atoms[parent_pos], List.getElem_mem hlt, of_decide_eq_true hp⟩
      have hins : originsPresent
          (insertAt s.atoms (scanGo (List.drop (parent_pos + 1) s.atoms) a
            (parent_pos + 1)) a) := by
        intro x hx
        rcases mem_of_mem_insertAt _ _ _ _ hx with rfl | hx1
        · obtain ⟨b, hb, hbid⟩ := horig
          exact ⟨b, mem_insertAt_of_mem _ _ _ _ hb, hbid⟩
        · obtain ⟨b, hb, hbid⟩ := hop x hx1
          exact ⟨b, mem_insertAt_of_mem _ _ _ _ hb, hbid⟩
      split
      · -- the inserted atom had a buffered delete: tombstone it
        apply drain_gc_inv drain hd
        exact ⟨hgc,
          markDeletedAt_ne_nil _ _ (insertAt_ne_nil s.atoms _ a),
          originsPresent_of_pairs (markDeletedAt_pairs _ _) hins⟩
      · apply drain_gc_inv drain hd
        exact ⟨hgc, insertAt_ne_nil s.atoms _ a, hins⟩

/-- `remoteMergeF` preserves the invariant at any fuel. -/
theorem mergeF_inv : ∀ (fuel : Nat) (s : Sequence) (a : Atom),
    SeqInv s → SeqInv (remoteMergeF fuel s a) := by
  intro fuel
  induction fuel with
  | zero => exact remoteMergeCore_inv _ (fun _ _ h => h)
  | succ fuel ih =>
    refine remoteMergeCore_inv _ ?_
    intro s1 id h1
    simp only [checkPendingOrphansWith]
    split
    · exact h1
    · have hfold : ∀ (l : List Atom) (st : Sequence),
          SeqInv st → SeqInv (l.foldl (remoteMergeF fuel) st) := by
        intro l
        induction l with
        | nil => exact fun st h => h
        | cons c cs ihl =>
          intro st h
          exact ihl _ (ih st c h)
      exact hfold _ _ h1

/-- Each non-GC operation preserves the invariant. -/
theorem applyOp_inv (s : Sequence) (op : SeqOp) (hgcop : isGCOp op = false)
    (h : SeqInv s) : SeqInv (applyOp s op) := by
  obtain ⟨hgc, hne, hop⟩ := h
  cases op with
  | linsert i c =>
    exact mergeF_inv _ _ _ ⟨hgc, hne, hop⟩
  | ldelete i =>
    show SeqInv (localDelete s i).2
    simp only [localDelete]
    split
    · -- found: tombstone and maybe auto-GC
      split
      · rename_i hcond
        exact absurd hcond.1 (by simp [hgc])
      · exact ⟨hgc, markDeletedAt_ne_nil _ _ hne,
          originsPresent_of_pairs (markDeletedAt_pairs _ _) hop⟩
    · exact ⟨hgc, hne, hop⟩
  | rmerge a =>
    exact mergeF_inv _ _ _ ⟨hgc, hne, hop⟩
  | rdelete target =>
    show SeqInv (remoteDelete s target)
    unfold remoteDelete
    split
    · split
      · exact ⟨hgc, markDeletedAt_ne_nil _ _ hne,
          originsPresent_of_pairs (markDeletedAt_pairs _ _) hop⟩
      · exact ⟨hgc, hne, hop⟩
    · split
      · exact ⟨hgc, hne, hop⟩
      · exact ⟨hgc, hne, hop⟩
  | adelta d =>
    show SeqInv (applyDelta s d)
    unfold applyDelta
    have hfold : ∀ (l : List Atom) (st : Sequence), SeqInv st →
        SeqInv (l.foldl (fun st a => if a.is_deleted = true then
          remoteDelete st a.id else remoteMerge st a) st) := by
      intro l
      induction l with
      | nil => exact fun st h => h
      | cons c cs ihl =>
        intro st hst
        apply ihl
        show SeqInv (if c.is_deleted = true then remoteDelete st c.id
          else remoteMerge st c)
        split
        · have hst1 := hst
          obtain ⟨g1, g2, g3⟩ := hst1
          show SeqInv (remoteDelete st c.id)
          unfold remoteDelete
          split
          · split
            · exact ⟨g1, markDeletedAt_ne_nil _ _ g2,
                originsPresent_of_pairs (markDeletedAt_pairs _ _) g3⟩
            · exact hst
          · split
            · exact hst
            · exact hst
        · exact mergeF_inv _ _ _ hst
    exact hfold d s ⟨hgc, hne, hop⟩
  | gcFrontier f => simp [isGCOp] at hgcop
  | gcLocal m => simp [isGCOp] at hgcop

/-! ### Claim C3: origin-presence invariant -/

/-- The invariant of claim C3, decidably: every atom other than the
sentinel head has its origin present in the sequence. -/
def originInvariant (s : Sequence) : Bool :=
  s.atoms.all (fun a =>
    a.id = sentinelId || s.atoms.any (fun b => b.id = a.origin))

/-- C3 amended: in every state reachable by interleavings of
`local_insert`, `local_delete`, `remote_merge`, `remote_delete` and
`apply_delta` — the two garbage-collection variants excluded — every
non-head atom present in the sequence has its origin also present (the
orphan buffer withholds atoms whose origin is missing). -/
theorem C3_origin_invariant_amended (client_id : Nat) (ops : List SeqOp)
    (h : ∀ op ∈ ops, isGCOp op = false) :
    originInvariant (runOps client_id ops) = true := by
  have hbase : SeqInv (Sequence.init client_id) := by
    refine ⟨rfl, by simp [Sequence.init], ?_⟩
    intro a ha
    simp only [Sequence.init, List.mem_singleton] at ha
    subst ha
    exact ⟨sentinelAtom, by simp [Sequence.init], rfl⟩
  have hfold : ∀ (l : List SeqOp) (s : Sequence), SeqInv s →
      (∀ op ∈ l, isGCOp op = false) → SeqInv (l.foldl applyOp s) := by
    intro l
    induction l with
    | nil => exact fun s hs _ => hs
    | cons op l1 ih =>
      intro s hs hl
      exact ih _ (applyOp_inv s op (hl op (by simp)) hs)
        (fun o ho => hl o (by simp [ho]))
  unfold runOps
  obtain ⟨-, -, hop⟩ := hfold ops (Sequence.init client_id) hbase h
  unfold originInvariant
  rw [List.all_eq_true]
  intro a ha
  obtain ⟨b, hb, hbid⟩ := hop a ha
  have hany : ((ops.foldl applyOp (Sequence.init client_id)).atoms.any
      fun b => b.id = a.origin) = true :=
    List.any_eq_true.mpr ⟨b, hb, decide_eq_true hbid⟩
  rw [hany]
  simp

/-- C3 amended witness: a short non-GC trace with an insert, an unknown
remote delete and a local delete. -/
theorem C3_origin_invariant_amended_witness :
    (∀ op ∈ [SeqOp.linsert 0 65, SeqOp.rdelete ⟨5, 5⟩, SeqOp.ldelete 0],
        isGCOp op = false) ∧
      originInvariant (runOps 1
        [SeqOp.linsert 0 65, SeqOp.rdelete ⟨5, 5⟩, SeqOp.ldelete 0]) = true :=
  ⟨by decide, C3_origin_invariant_amended 1
    [SeqOp.linsert 0 65, SeqOp.rdelete ⟨5, 5⟩, SeqOp.ldelete 0] (by decide)⟩

/-- C3 counterexample: insert `A`, insert `B` after it, tombstone `A`,
then frontier-GC with frontier `{1:1}`: `A` is physically removed while
its child `B` (origin `(1,1)`) stays, so a reachable state violates the
origin-presence invariant. -/
theorem C3_origin_invariant_cex :
    originInvariant (runOps 1
        [.linsert 0 65, .linsert 1 66, .ldelete 0,
          .gcFrontier ⟨[(1, 1)], 0⟩]) = false ∧
      (runOps 1 [.linsert 0 65, .linsert 1 66, .ldelete 0,
          .gcFrontier ⟨[(1, 1)], 0⟩]).atoms.map (fun a => (a.id, a.origin))
        = [(⟨0, 0⟩, ⟨0, 0⟩), (⟨1, 3⟩, ⟨1, 1⟩)] := by
  decide

/-! ### Claim C2: delta brings the receiver's vector clock to the
sender's -/

/-- C2 counterexample: peer 1 inserts `A` and deletes it; its vector
clock is `{1:2}`. A fresh peer 2 (vector clock `{2:0}`) applies the
delta, but the only delta atom is tombstoned and is applied as
`remote_delete`, which never updates the vector clock: the receiver
ends at `get(1) = 0`, not vector-clock-equal to the sender. -/
theorem C2_delta_vc_cex :
    vcGet (applyDelta (Sequence.init 2)
        (getDelta (runOps 1 [.linsert 0 65, .ldelete 0])
          (Sequence.init 2).vclock)).vclock 1 = 0 ∧
      vcGet (runOps 1 [.linsert 0 65, .ldelete 0]).vclock 1 = 2 := by
  decide

/-! ### Claim C4: stable frontier with no active peers -/

/-- C4: `computeStableFrontier` always pushes the coordinator's own
vector clock into `all_clocks`, so the `all_clocks.empty()` branch that
the source comments as "If no active peers, return empty clock (no GC)"
is unreachable. With no peers at all and own clock `{1:5}`, the
frontier is `{1:5}`, not the empty clock, and a tombstone `(1,3)` is
removed by frontier GC. -/
theorem C4_stable_frontier_bug :
    getActivePeers
        (updateMyVectorClock (GCCoordinator.init 1 0) ⟨[(1, 5)], 1⟩) 0 = [] ∧
      vcGet (computeStableFrontier
        (updateMyVectorClock (GCCoordinator.init 1 0) ⟨[(1, 5)], 1⟩) 0) 1 = 5 ∧
      (garbageCollect (runOps 1 [.linsert 0 65, .ldelete 0])
        (computeStableFrontier
          (updateMyVectorClock (GCCoordinator.init 1 0) ⟨[(1, 5)], 1⟩) 0)).2
        = 1 := by
  decide

/-! ### Claim C6: tombstone counter accuracy across load -/

/-- C6: `Sequence::load` clears and rebuilds the containers but never
resets or recounts the mirrored `tombstone_count`. Loading a saved
document that holds one tombstone into a fresh sequence yields
`tombstone_count() = 0` while one sequence atom has `deleted = true`. -/
theorem C6_tombstone_count_load_bug :
    (loadSeq (Sequence.init 2)
        (saveSeq (runOps 1 [.linsert 0 65, .ldelete 0]))).map
        (fun s => (s.tombstone_count,
          (s.atoms.filter (fun a => a.is_deleted = true)).length))
      = some (0, 1) := by
  decide

/-! ### Claim C10 (amended): sentinel preservation -/

/-- Operations that never target the sentinel id with a remote delete,
directly or through a tombstoned delta atom. Every other path is blocked
in the source: merges by the duplicate check (the sentinel is indexed),
the local-delete walk by the visibility test, and both GC variants by
the explicit sentinel skip. -/
def sentinelSafe : SeqOp → Bool
  | .rdelete target => decide (target ≠ sentinelId)
  | .adelta d =>
    d.all (fun a => decide (¬(a.is_deleted = true ∧ a.id = sentinelId)))
  | _ => true

/-- The pristine (undeleted) sentinel stands at the head of the atom
list. -/
def sentinelAtHead (s : Sequence) : Prop :=
  ∃ rest, s.atoms = sentinelAtom :: rest

/-- The merge scan never returns a position before its start. -/
theorem scanGo_ge : ∀ (l : List Atom) (n : Atom) (pos : Nat),
    pos ≤ scanGo l n pos := by
  intro l
  induction l with
  | nil => intro n pos; simp [scanGo]
  | cons c cs ih =>
    intro n pos
    simp only [scanGo]
    split
    · exact Nat.le_refl pos
    · split
      · exact Nat.le_refl pos
      · exact Nat.le_trans (Nat.le_succ pos) (ih n (pos + 1))

/-- If the head fails the predicate, a found index is positive. -/
theorem findIdx_cons_pos {p : Atom → Bool} {x : Atom} {xs : List Atom}
    {i : Nat} (hx : p x = false) (h : (x :: xs).findIdx? p = some i) :
    1 ≤ i := by
  rcases Nat.eq_zero_or_pos i with rfl | hpos
  · obtain ⟨hlt, hp, -⟩ := List.findIdx?_eq_some_iff_getElem.mp h
    rw [List.getElem_cons_zero, hx] at hp
    exact absurd hp (by simp)
  · exact hpos

/-- One `removeTombstones` step on a non-sentinel id keeps the sentinel
at the head. -/
theorem removeStep_sentinel (st : Sequence) (i : OpID) (hi : i ≠ sentinelId)
    (h : sentinelAtHead st) :
    sentinelAtHead (match st.atoms.findIdx? (fun a => a.id = i) with
      | some p => { st with atoms := eraseAt st.atoms p,
                            tombstone_count := st.tombstone_count - 1 }
      | none => st) := by
  obtain ⟨rest, hr⟩ := h
  split
  · rename_i p heq
    have hx : (fun a => decide (a.id = i)) sentinelAtom = false :=
      decide_eq_false (fun hc => hi hc.symm)
    rw [hr] at heq
    have hp1 : 1 ≤ p := findIdx_cons_pos hx heq
    obtain ⟨k, rfl⟩ : ∃ k, p = k + 1 := ⟨p - 1, by omega⟩
    refine ⟨eraseAt rest k, ?_⟩
    show eraseAt st.atoms (k + 1) = sentinelAtom :: eraseAt rest k
    rw [hr]
    rfl
  · exact ⟨rest, hr⟩

/-- `removeTombstones` with non-sentinel ids keeps the sentinel at the
head. -/
theorem removeTombstones_sentinel : ∀ (ids : List OpID) (s : Sequence),
    (∀ i ∈ ids, i ≠ sentinelId) → sentinelAtHead s →
    sentinelAtHead (removeTombstones s ids) := by
  intro ids
  induction ids with
  | nil => exact fun s _ h => h
  | cons i is ih =>
    intro s hids h
    exact ih _ (fun j hj => hids j (by simp [hj]))
      (removeStep_sentinel s i (hids i (by simp)) h)

/-- `garbageCollectLocal` keeps the sentinel at the head: the removal
list explicitly skips the sentinel id. -/
theorem gcLocal_sentinel (s : Sequence) (m : Nat) (h : sentinelAtHead s) :
    sentinelAtHead (garbageCollectLocal s m).1 := by
  simp only [garbageCollectLocal]
  refine removeTombstones_sentinel _ _ ?_ h
  intro i hi
  simp only [List.mem_map, List.mem_filter] at hi
  obtain ⟨a, ⟨-, hpred⟩, rfl⟩ := hi
  have hprop := of_decide_eq_true hpred
  intro hcontra
  exact hprop.1 ⟨by rw [hcontra]; rfl, by rw [hcontra]; rfl⟩

/-- The drain-then-auto-GC tail of the merge body keeps the sentinel at
the head. -/
theorem drain_gc_sentinel (drain : Sequence → OpID → Sequence)
    (hd : ∀ s i, sentinelAtHead s → sentinelAtHead (drain s i))
    (s3 : Sequence) (i : OpID) (h3 : sentinelAtHead s3) :
    sentinelAtHead (if (drain s3 i).auto_gc_enabled = true ∧
        (drain s3 i).tombstone_threshold ≤ (drain s3 i).tombstone_count
      then (garbageCollectLocal (drain s3 i)
        (drain s3 i).min_age_threshold).1
      else drain s3 i) := by
  split
  · exact gcLocal_sentinel _ _ (hd s3 i h3)
  · exact hd s3 i h3

/-- The merge body keeps the sentinel at the head, given the drain
does: orphan buffering leaves the atoms alone, the scan inserts at a
position past the origin (hence positive), and the buffered-delete mark
hits the same positive position. -/
theorem remoteMergeCore_sentinel (drain : Sequence → OpID → Sequence)
    (hd : ∀ s i, sentinelAtHead s → sentinelAtHead (drain s i)) :
    ∀ s a, sentinelAtHead s → sentinelAtHead (remoteMergeCore drain s a) := by
  intro s a h
  obtain ⟨rest, hr⟩ := h
  simp only [remoteMergeCore]
  split
  · exact ⟨rest, hr⟩
  · split
    · split
      · exact ⟨rest, by rw [evict_atoms]; exact hr⟩
      · exact ⟨rest, hr⟩
    · rename_i parent_pos heq
      have hpos : 1 ≤ scanGo (List.drop (parent_pos + 1) s.atoms) a
          (parent_pos + 1) :=
        Nat.le_trans (Nat.succ_le_succ (Nat.zero_le parent_pos))
          (scanGo_ge _ _ _)
      obtain ⟨k, hk⟩ : ∃ k, scanGo (List.drop (parent_pos + 1) s.atoms) a
          (parent_pos + 1) = k + 1 :=
        ⟨scanGo (List.drop (parent_pos + 1) s.atoms) a (parent_pos + 1) - 1,
          by omega⟩
      split
      · apply drain_gc_sentinel drain hd
        refine ⟨markDeletedAt (insertAt rest k a) k, ?_⟩
        show markDeletedAt (insertAt s.atoms
            (scanGo (List.drop (parent_pos + 1) s.atoms) a (parent_pos + 1)) a)
            (scanGo (List.drop (parent_pos + 1) s.atoms) a (parent_pos + 1))
          = sentinelAtom :: markDeletedAt (insertAt rest k a) k
        rw [hk, hr]
        rfl
      · apply drain_gc_sentinel drain hd
        refine ⟨insertAt rest k a, ?_⟩
        show insertAt s.atoms
            (scanGo (List.drop (parent_pos + 1) s.atoms) a (parent_pos + 1)) a
          = sentinelAtom :: insertAt rest k a
        rw [hk, hr]
        rfl

/-- `remoteMergeF` keeps the sentinel at the head at any fuel. -/
theorem mergeF_sentinel : ∀ (fuel : Nat) (s : Sequence) (a : Atom),
    sentinelAtHead s → sentinelAtHead (remoteMergeF fuel s a) := by
  intro fuel
  induction fuel with
  | zero => exact remoteMergeCore_sentinel _ (fun _ _ h => h)
  | succ fuel ih =>
    refine remoteMergeCore_sentinel _ ?_
    intro s1 i h1
    simp only [checkPendingOrphansWith]
    split
    · exact h1
    · have hfold : ∀ (l : List Atom) (st : Sequence), sentinelAtHead st →
          sentinelAtHead (l.foldl (remoteMergeF fuel) st) := by
        intro l
        induction l with
        | nil => exact fun st h => h
        | cons c cs ihl =>
          intro st h
          exact ihl _ (ih st c h)
      exact hfold _ _ h1

/-- The found index of the visible walk is at least the start
position. -/
theorem findVisibleIdx_ge : ∀ (l : List Atom) (t pos p : Nat),
    findVisibleIdx l t pos = some p → pos ≤ p := by
  intro l
  induction l with
  | nil => intro t pos p h; simp [findVisibleIdx] at h
  | cons a as ih =>
    intro t pos p h
    simp only [findVisibleIdx] at h
    split at h
    · split at h
      · exact le_of_eq (Option.some.inj h)
      · exact Nat.le_trans (Nat.le_succ pos) (ih _ _ _ h)
    · exact Nat.le_trans (Nat.le_succ pos) (ih _ _ _ h)

/-- `localDelete` keeps the sentinel at the head: the sentinel is
invisible, so the walk lands on a positive position. -/
theorem localDelete_sentinel (s : Sequence) (i : Nat) (h : sentinelAtHead s) :
    sentinelAtHead (localDelete s i).2 := by
  obtain ⟨rest, hr⟩ := h
  show sentinelAtHead (localDelete s i).2
  simp only [localDelete]
  split
  · rename_i p heq
    have hp1 : 1 ≤ p := by
      rw [hr] at heq
      simp only [findVisibleIdx] at heq
      rw [show isVisible sentinelAtom = false from rfl] at heq
      rw [if_neg (by simp)] at heq
      exact Nat.le_trans (Nat.le_refl 1) (findVisibleIdx_ge rest i 1 p heq)
    obtain ⟨k, rfl⟩ : ∃ k, p = k + 1 := ⟨p - 1, by omega⟩
    split
    · apply gcLocal_sentinel
      refine ⟨markDeletedAt rest k, ?_⟩
      show markDeletedAt s.atoms (k + 1) = sentinelAtom :: markDeletedAt rest k
      rw [hr]
      rfl
    · refine ⟨markDeletedAt rest k, ?_⟩
      show markDeletedAt s.atoms (k + 1) = sentinelAtom :: markDeletedAt rest k
      rw [hr]
      rfl
  · exact ⟨rest, hr⟩

/-- `remoteDelete` on a non-sentinel id keeps the sentinel at the
head. -/
theorem remoteDelete_sentinel (s : Sequence) (t : OpID) (ht : t ≠ sentinelId)
    (h : sentinelAtHead s) : sentinelAtHead (remoteDelete s t) := by
  obtain ⟨rest, hr⟩ := h
  unfold remoteDelete
  split
  · rename_i p heq
    have hx : (fun a => decide (a.id = t)) sentinelAtom = false :=
      decide_eq_false (fun hc => ht hc.symm)
    rw [hr] at heq
    have hp1 : 1 ≤ p := findIdx_cons_pos hx heq
    obtain ⟨k, rfl⟩ : ∃ k, p = k + 1 := ⟨p - 1, by omega⟩
    split
    · refine ⟨markDeletedAt rest k, ?_⟩
      show markDeletedAt s.atoms (k + 1) = sentinelAtom :: markDeletedAt rest k
      rw [hr]
      rfl
    · exact ⟨rest, hr⟩
  · split
    · exact ⟨rest, hr⟩
    · exact ⟨rest, hr⟩

/-- Every sentinel-safe operation keeps the sentinel at the head. -/
theorem applyOp_sentinel (s : Sequence) (op : SeqOp)
    (hsafe : sentinelSafe op = true) (h : sentinelAtHead s) :
    sentinelAtHead (applyOp s op) := by
  cases op with
  | linsert i c => exact mergeF_sentinel _ _ _ h
  | ldelete i => exact localDelete_sentinel s i h
  | rmerge a => exact mergeF_sentinel _ _ _ h
  | rdelete target =>
    have ht : target ≠ sentinelId := of_decide_eq_true hsafe
    exact remoteDelete_sentinel s target ht h
  | adelta d =>
    show sentinelAtHead (applyDelta s d)
    unfold applyDelta
    have hall : ∀ a ∈ d, ¬(a.is_deleted = true ∧ a.id = sentinelId) := by
      intro a ha
      have h1 : d.all
          (fun a => decide (¬(a.is_deleted = true ∧ a.id = sentinelId)))
          = true := hsafe
      exact of_decide_eq_true (List.all_eq_true.mp h1 a ha)
    have hfold : ∀ (l : List Atom) (st : Sequence),
        (∀ a ∈ l, ¬(a.is_deleted = true ∧ a.id = sentinelId)) →
        sentinelAtHead st →
        sentinelAtHead (l.foldl (fun st a => if a.is_deleted = true then
          remoteDelete st a.id else remoteMerge st a) st) := by
      intro l
      induction l with
      | nil => exact fun st _ h => h
      | cons c cs ihl =>
        intro st hl hst
        apply ihl _ (fun a ha => hl a (by simp [ha]))
        show sentinelAtHead (if c.is_deleted = true then remoteDelete st c.id
          else remoteMerge st c)
        split
        · rename_i hdel
          exact remoteDelete_sentinel st c.id
            (fun hc => hl c (by simp) ⟨hdel, hc⟩) hst
        · exact mergeF_sentinel _ _ _ hst
    exact hfold d s hall h
  | gcFrontier f =>
    show sentinelAtHead (garbageCollect s f).1
    simp only [garbageCollect]
    refine removeTombstones_sentinel _ _ ?_ h
    intro i hi
    simp only [List.mem_map, List.mem_filter] at hi
    obtain ⟨a, ⟨-, hpred⟩, rfl⟩ := hi
    have hprop := of_decide_eq_true hpred
    intro hcontra
    exact hprop.1 ⟨by rw [hcontra]; rfl, by rw [hcontra]; rfl⟩
  | gcLocal m => exact gcLocal_sentinel s m h

/-- C10 amended: with `remote_delete((0,0))` excluded — directly and
through tombstoned delta atoms with id `(0,0)` — every reachable state,
garbage collection included, keeps the pristine sentinel at the head of
the sequence: its deleted flag is false, it is never removed, it is
never visible, and `to_string()` never includes its content (no visible
atom has content 0). -/
theorem C10_sentinel_amended (client_id : Nat) (ops : List SeqOp)
    (h : ∀ op ∈ ops, sentinelSafe op = true) :
    (runOps client_id ops).atoms.head? = some sentinelAtom ∧
      isVisible sentinelAtom = false ∧
      0 ∉ seqToString (runOps client_id ops) := by
  have hbase : sentinelAtHead (Sequence.init client_id) := ⟨[], rfl⟩
  have hfold : ∀ (l : List SeqOp) (s : Sequence), sentinelAtHead s →
      (∀ op ∈ l, sentinelSafe op = true) →
      sentinelAtHead (l.foldl applyOp s) := by
    intro l
    induction l with
    | nil => exact fun s hs _ => hs
    | cons op l1 ih =>
      intro s hs hl
      exact ih _ (applyOp_sentinel s op (hl op (by simp)) hs)
        (fun o ho => hl o (by simp [ho]))
  unfold runOps
  obtain ⟨rest, hr⟩ := hfold ops (Sequence.init client_id) hbase h
  refine ⟨by rw [hr]; rfl, rfl, ?_⟩
  intro hmem
  simp only [seqToString, List.mem_map, List.mem_filter] at hmem
  obtain ⟨a, ⟨-, hvis⟩, hc⟩ := hmem
  have h2 : a.content ≠ 0 := by
    simp only [isVisible, Bool.and_eq_true, bne_iff_ne, ne_eq] at hvis
    exact hvis.2
  exact h2 hc

/-- C10 amended witness: an insert, a non-sentinel remote delete and a
local GC keep the pristine sentinel at the head. -/
theorem C10_sentinel_amended_witness :
    (∀ op ∈ [SeqOp.linsert 0 65, SeqOp.rdelete ⟨1, 1⟩, SeqOp.gcLocal 0],
        sentinelSafe op = true) ∧
      ((runOps 1 [SeqOp.linsert 0 65, SeqOp.rdelete ⟨1, 1⟩,
            SeqOp.gcLocal 0]).atoms.head? = some sentinelAtom ∧
        isVisible sentinelAtom = false ∧
        0 ∉ seqToString (runOps 1 [SeqOp.linsert 0 65, SeqOp.rdelete ⟨1, 1⟩,
            SeqOp.gcLocal 0])) :=
  ⟨by decide, C10_sentinel_amended 1
    [SeqOp.linsert 0 65, SeqOp.rdelete ⟨1, 1⟩, SeqOp.gcLocal 0] (by decide)⟩

/-! ### Claim C2 (amended): delta sync and the receiver's vector clock -/

/-- Largest `id.clock` among the atoms of peer `p` in a list (0 when
none). -/
def maxClockAt : List Atom → Nat → Nat
  | [], _ => 0
  | a :: as, p =>
    if a.id.client_id = p then max a.id.clock (maxClockAt as p)
    else maxClockAt as p

/-- Every buffered orphan is already covered by the vector clock: its
peer's entry dominates its clock. `remoteMerge` establishes this when it
buffers (the update runs first), so it holds in every reachable state. -/
def orphDom (s : Sequence) : Prop :=
  ∀ e ∈ s.pending_orphans, ∀ c ∈ e.2,
    vcDominates c.id.client_id c.id.clock s.vclock

/-- Entry-list lookup behind `VectorClock::get`. -/
def getE (l : List (Nat × Nat)) (p : Nat) : Nat :=
  match l.find? (fun e => e.1 = p) with
  | some e => e.2
  | none => 0

/-- The keys on which the delta-sync hypotheses are checked: all keys of
either vector clock and all peer ids of the sender's atoms. Off this
list both sides of every comparison are 0. -/
def c2Keys (S R : Sequence) : List Nat :=
  S.vclock.entries.map Prod.fst ++ R.vclock.entries.map Prod.fst ++
    S.atoms.map (fun a => a.id.client_id)

/-- `vcGet` reads the entry list. -/
theorem vcGet_eq_getE (vc : VectorClock) (p : Nat) :
    vcGet vc p = getE vc.entries p := rfl

/-- Head-step equation for the entry lookup. -/
theorem getE_cons (e : Nat × Nat) (es : List (Nat × Nat)) (p : Nat) :
    getE (e :: es) p = if e.1 = p then e.2 else getE es p := by
  by_cases h : e.1 = p
  · simp [getE, List.find?, h]
  · simp [getE, List.find?, h]

/-- Pointwise effect of `vcUpdateEntries`: the updated key rises to the
max with the new value, every other key is untouched. -/
theorem getE_update (k t p : Nat) : ∀ l : List (Nat × Nat),
    getE (vcUpdateEntries l k t) p
      = if p = k then max (getE l p) t else getE l p := by
  intro l
  induction l with
  | nil =>
    by_cases hp : p = k
    · show getE [(k, t)] p = if p = k then max (getE [] p) t else getE [] p
      rw [getE_cons, if_pos (show ((k : Nat), t).1 = p from hp.symm), if_pos hp]
      simp [getE]
    · show getE [(k, t)] p = if p = k then max (getE [] p) t else getE [] p
      rw [getE_cons, if_neg (fun h : (k : Nat) = p => hp h.symm), if_neg hp]
  | cons e es ih =>
    by_cases he : e.1 = k
    · simp only [vcUpdateEntries, if_pos he]
      by_cases hp : p = k
      · have g2 : e.1 = p := by rw [he]; exact hp.symm
        rw [getE_cons, getE_cons,
          if_pos (show ((k : Nat), max e.2 t).1 = p from hp.symm),
          if_pos hp, if_pos g2]
      · have g2 : ¬(e.1 = p) := by rw [he]; exact fun hq => hp hq.symm
        rw [getE_cons, getE_cons,
          if_neg (show ¬((k : Nat), max e.2 t).1 = p from
            fun hq => hp hq.symm),
          if_neg hp, if_neg g2]
    · simp only [vcUpdateEntries, if_neg he]
      by_cases hep : e.1 = p
      · have hp : ¬(p = k) := fun hq => he (by rw [hep, hq])
        rw [getE_cons, getE_cons, if_pos hep, if_neg hp, if_pos hep]
      · rw [getE_cons, getE_cons, if_neg hep, ih, if_neg hep]

/-- Pointwise effect of `VectorClock::update`. -/
theorem vcGet_vcUpdate (vc : VectorClock) (k t p : Nat) :
    vcGet (vcUpdate vc k t) p
      = if p = k then max (vcGet vc p) t else vcGet vc p := by
  simp only [vcGet_eq_getE]
  exact getE_update k t p vc.entries

/-- Pointwise effect of folding `update` over a list of atom ids. -/
theorem vcGet_foldUpdate (p : Nat) : ∀ (l : List Atom) (v : VectorClock),
    vcGet (l.foldl (fun v a => vcUpdate v a.id.client_id a.id.clock) v) p
      = max (vcGet v p) (maxClockAt l p) := by
  intro l
  induction l with
  | nil =>
    intro v
    simp [maxClockAt]
  | cons a as ih =>
    intro v
    simp only [List.foldl_cons, maxClockAt]
    rw [ih, vcGet_vcUpdate]
    by_cases hp : p = a.id.client_id
    · rw [if_pos hp, if_pos hp.symm]
      omega
    · rw [if_neg hp, if_neg (fun hq => hp hq.symm)]

/-- Atoms dropped by the delta filter never raise the receiver-side max:
they are sentinel-id atoms (clock 0) or already below the receiver's
entry. -/
theorem maxClockAt_getDelta (rv : VectorClock) (p : Nat) :
    ∀ l : List Atom,
    max (vcGet rv p) (maxClockAt (l.filter (fun a =>
        ¬(a.id.client_id = 0 ∧ a.id.clock = 0) ∧
          vcGet rv a.id.client_id < a.id.clock)) p)
      = max (vcGet rv p) (maxClockAt l p) := by
  intro l
  induction l with
  | nil => rfl
  | cons a as ih =>
    by_cases hpred : ¬(a.id.client_id = 0 ∧ a.id.clock = 0) ∧
        vcGet rv a.id.client_id < a.id.clock
    · have hstep : (a :: as).filter (fun a =>
          ¬(a.id.client_id = 0 ∧ a.id.clock = 0) ∧
            vcGet rv a.id.client_id < a.id.clock)
          = a :: as.filter (fun a =>
              ¬(a.id.client_id = 0 ∧ a.id.clock = 0) ∧
                vcGet rv a.id.client_id < a.id.clock) := by
        rw [List.filter_cons]
        simp only [decide_eq_true hpred]
        rfl
      rw [hstep]
      simp only [maxClockAt]
      by_cases hcid : a.id.client_id = p
      · rw [if_pos hcid, if_pos hcid]
        omega
      · rw [if_neg hcid, if_neg hcid]
        exact ih
    · have hstep : (a :: as).filter (fun a =>
          ¬(a.id.client_id = 0 ∧ a.id.clock = 0) ∧
            vcGet rv a.id.client_id < a.id.clock)
          = as.filter (fun a =>
              ¬(a.id.client_id = 0 ∧ a.id.clock = 0) ∧
                vcGet rv a.id.client_id < a.id.clock) := by
        rw [List.filter_cons]
        simp only [decide_eq_false hpred]
        rfl
      rw [hstep]
      simp only [maxClockAt]
      by_cases hcid : a.id.client_id = p
      · rw [if_pos hcid, ih]
        rcases Decidable.em (a.id.client_id = 0 ∧ a.id.clock = 0) with hs | hns
        · have h0 : a.id.clock = 0 := hs.2
          omega
        · have h2 : ¬(vcGet rv a.id.client_id < a.id.clock) :=
            fun hlt => hpred ⟨hns, hlt⟩
          rw [hcid] at h2
          omega
      · rw [if_neg hcid]
        exact ih

/-- A key absent from the entry list reads 0. -/
theorem getE_zero_of_not_key : ∀ (l : List (Nat × Nat)) (p : Nat),
    p ∉ l.map Prod.fst → getE l p = 0 := by
  intro l
  induction l with
  | nil => intro p _; rfl
  | cons e es ih =>
    intro p hp
    have h1 : ¬(e.1 = p) := fun hq => hp (by simp [hq])
    rw [getE_cons, if_neg h1]
    exact ih p (fun hq => hp (by simp [hq]))

/-- A key absent from the clock reads 0. -/
theorem vcGet_zero_of_not_key (vc : VectorClock) (p : Nat)
    (h : p ∉ vc.entries.map Prod.fst) : vcGet vc p = 0 := by
  rw [vcGet_eq_getE]
  exact getE_zero_of_not_key vc.entries p h

/-- A peer with no atoms in the list has max clock 0. -/
theorem maxClockAt_zero_of_not_key : ∀ (l : List Atom) (p : Nat),
    p ∉ l.map (fun a => a.id.client_id) → maxClockAt l p = 0 := by
  intro l
  induction l with
  | nil => intro p _; rfl
  | cons a as ih =>
    intro p hp
    have h1 : ¬(a.id.client_id = p) := fun hq => hp (by simp [hq])
    simp only [maxClockAt, if_neg h1]
    exact ih p (fun hq => hp (by simp [hq]))

/-- Erasing an element keeps membership in the original list. -/
theorem mem_eraseAt : ∀ (l : List Atom) (j : Nat) (c : Atom),
    c ∈ eraseAt l j → c ∈ l := by
  intro l
  induction l with
  | nil => intro j c h; simp [eraseAt] at h
  | cons a as ih =>
    intro j c h
    cases j with
    | zero => exact List.mem_cons_of_mem a h
    | succ j =>
      rcases List.mem_cons.mp h with rfl | h1
      · exact List.mem_cons_self _ _
      · exact List.mem_cons_of_mem a (ih j c h1)

/-- Members after a key erase were members before. -/
theorem orphErase_mem : ∀ (m : List (OpID × List Atom)) (k : OpID)
    (e : OpID × List Atom), e ∈ orphErase m k → e ∈ m := by
  intro m
  induction m with
  | nil => intro k e h; simp [orphErase] at h
  | cons e1 es ih =>
    intro k e h
    simp only [orphErase] at h
    split at h
    · exact List.mem_cons_of_mem e1 h
    · rcases List.mem_cons.mp h with rfl | h1
      · exact List.mem_cons_self _ _
      · exact List.mem_cons_of_mem e1 (ih k e h1)

/-- Members after a key replace are the new entry or old members. -/
theorem orphSet_mem : ∀ (m : List (OpID × List Atom)) (k : OpID)
    (v : List Atom) (e : OpID × List Atom),
    e ∈ orphSet m k v → e = (k, v) ∨ e ∈ m := by
  intro m
  induction m with
  | nil =>
    intro k v e h
    simp [orphSet] at h
    exact Or.inl h
  | cons e1 es ih =>
    intro k v e h
    simp only [orphSet] at h
    split at h
    · rcases List.mem_cons.mp h with rfl | h1
      · exact Or.inl rfl
      · exact Or.inr (List.mem_cons_of_mem e1 h1)
    · rcases List.mem_cons.mp h with rfl | h1
      · exact Or.inr (List.mem_cons_self _ _)
      · rcases ih k v e h1 with h2 | h2
        · exact Or.inl h2
        · exact Or.inr (List.mem_cons_of_mem e1 h2)

/-- Atoms stored after a buffer append are old members or the appended
atom. -/
theorem orphAppend_mem : ∀ (m : List (OpID × List Atom)) (k : OpID)
    (x : Atom) (e : OpID × List Atom), e ∈ orphAppend m k x →
    ∀ c ∈ e.2, (∃ e0 ∈ m, c ∈ e0.2) ∨ c = x := by
  intro m
  induction m with
  | nil =>
    intro k x e h c hc
    simp [orphAppend] at h
    subst h
    simp at hc
    exact Or.inr hc
  | cons e1 es ih =>
    intro k x e h c hc
    simp only [orphAppend] at h
    split at h
    · rcases List.mem_cons.mp h with he | h1
      · rw [he] at hc
        rcases List.mem_append.mp hc with h2 | h2
        · exact Or.inl ⟨e1, List.mem_cons_self _ _, h2⟩
        · simp at h2
          exact Or.inr h2
      · exact Or.inl ⟨e, List.mem_cons_of_mem e1 h1, hc⟩
    · rcases List.mem_cons.mp h with he | h1
      · rw [he] at hc
        exact Or.inl ⟨e1, List.mem_cons_self _ _, hc⟩
      · rcases ih k x e h1 c hc with ⟨e0, he0, hc0⟩ | h2
        · exact Or.inl ⟨e0, List.mem_cons_of_mem e1 he0, hc0⟩
        · exact Or.inr h2

/-- A found buffer vector is the payload of some entry. -/
theorem orphFind_mem : ∀ (m : List (OpID × List Atom)) (k : OpID)
    (ch : List Atom), orphFind m k = some ch → ∃ e0 ∈ m, e0.2 = ch := by
  intro m k ch h
  simp only [orphFind] at h
  cases hf : m.find? (fun e => e.1 = k) with
  | none => rw [hf] at h; simp at h
  | some e0 =>
    rw [hf] at h
    simp at h
    exact ⟨e0, List.mem_of_find?_eq_some hf, h⟩

/-- One eviction step keeps the orphan-domination invariant: it only
removes buffered atoms. -/
theorem evictStep_orphDom (st : Sequence) (entry : Nat × OpID)
    (h : orphDom st) : orphDom (evictStep st entry) := by
  simp only [evictStep]
  split
  · exact h
  · rename_i children hfind
    split
    · exact h
    · split
      · intro e he c hc
        have he1 := orphErase_mem _ _ _ he
        rcases orphSet_mem _ _ _ _ he1 with rfl | he2
        · have hc2 : c ∈ children := mem_eraseAt _ _ _ hc
          obtain ⟨e0, he0, hch⟩ := orphFind_mem _ _ _ hfind
          exact h e0 he0 c (by rw [hch]; exact hc2)
        · exact h e he2 c hc
      · intro e he c hc
        rcases orphSet_mem _ _ _ _ he with rfl | he2
        · have hc2 : c ∈ children := mem_eraseAt _ _ _ hc
          obtain ⟨e0, he0, hch⟩ := orphFind_mem _ _ _ hfind
          exact h e0 he0 c (by rw [hch]; exact hc2)
        · exact h e he2 c hc

/-- Eviction keeps the orphan-domination invariant. -/
theorem evictOldOrphans_orphDom (s : Sequence) (h : orphDom s) :
    orphDom (evictOldOrphans s) := by
  simp only [evictOldOrphans]
  split
  · exact h
  · have hfold : ∀ (l : List (Nat × OpID)) (st : Sequence), orphDom st →
        orphDom (l.foldl evictStep st) := by
      intro l
      induction l with
      | nil => exact fun st h => h
      | cons e es ihl =>
        intro st hst
        exact ihl _ (evictStep_orphDom st e hst)
    exact hfold _ _ h

/-- Local-age GC leaves the orphan buffer untouched. -/
theorem gclocal_orphans (s : Sequence) (m : Nat) :
    ((garbageCollectLocal s m).1).pending_orphans = s.pending_orphans := by
  conv_lhs => rw [garbageCollectLocal_shape s m]
  rfl

/-- The drain-then-auto-GC tail of the merge body keeps orphan
domination and the vector clock, given the drain does. -/
theorem drain_gc_orphExact (drain : Sequence → OpID → Sequence)
    (hd : ∀ s i, orphDom s →
      orphDom (drain s i) ∧ (drain s i).vclock = s.vclock)
    (s3 : Sequence) (i : OpID) (h3 : orphDom s3) :
    orphDom (if (drain s3 i).auto_gc_enabled = true ∧
        (drain s3 i).tombstone_threshold ≤ (drain s3 i).tombstone_count
      then (garbageCollectLocal (drain s3 i)
        (drain s3 i).min_age_threshold).1
      else drain s3 i) ∧
    (if (drain s3 i).auto_gc_enabled = true ∧
        (drain s3 i).tombstone_threshold ≤ (drain s3 i).tombstone_count
      then (garbageCollectLocal (drain s3 i)
        (drain s3 i).min_age_threshold).1
      else drain s3 i).vclock = s3.vclock := by
  have hD := hd s3 i h3
  by_cases hC : (drain s3 i).auto_gc_enabled = true ∧
      (drain s3 i).tombstone_threshold ≤ (drain s3 i).tombstone_count
  · rw [if_pos hC]
    constructor
    · intro e he c hc
      rw [gclocal_orphans] at he
      rw [gclocal_vclock]
      exact hD.1 e he c hc
    · rw [gclocal_vclock]
      exact hD.2
  · rw [if_neg hC]
    exact hD

/-- The merge body updates the vector clock by exactly one `update` at
the incoming atom's id and keeps orphan domination, given the drain
keeps both. -/
theorem remoteMergeCore_orphExact (drain : Sequence → OpID → Sequence)
    (hd : ∀ s i, orphDom s →
      orphDom (drain s i) ∧ (drain s i).vclock = s.vclock) :
    ∀ s a, orphDom s →
      orphDom (remoteMergeCore drain s a) ∧
      (remoteMergeCore drain s a).vclock
        = vcUpdate s.vclock a.id.client_id a.id.clock := by
  intro s a h
  have h1 : orphDom { s with
      clock := max s.clock a.id.clock + 1,
      vclock := vcUpdate s.vclock a.id.client_id a.id.clock } := by
    intro e he c hc
    exact vcUpdate_dominates_pres _ _ _ _ _ (h e he c hc)
  simp only [remoteMergeCore]
  split
  · exact ⟨h1, rfl⟩
  · split
    · split
      · -- buffer over capacity: evict, then append the orphan
        constructor
        · intro e he c hc
          have hev : orphDom (evictOldOrphans { s with
              clock := max s.clock a.id.clock + 1,
              vclock := vcUpdate s.vclock a.id.client_id a.id.clock }) :=
            evictOldOrphans_orphDom _ h1
          rcases orphAppend_mem _ _ _ _ he c hc with ⟨e0, he0, hc0⟩ | hca
          · exact hev e0 he0 c hc0
          · rw [hca]
            show vcDominates a.id.client_id a.id.clock
              (evictOldOrphans { s with
                clock := max s.clock a.id.clock + 1,
                vclock := vcUpdate s.vclock a.id.client_id
                  a.id.clock }).vclock
            rw [evict_vclock]
            exact vcUpdate_dominates_self s.vclock a.id.client_id a.id.clock
        · show (evictOldOrphans { s with
              clock := max s.clock a.id.clock + 1,
              vclock := vcUpdate s.vclock a.id.client_id
                a.id.clock }).vclock
            = vcUpdate s.vclock a.id.client_id a.id.clock
          rw [evict_vclock]
      · -- append the orphan without eviction
        constructor
        · intro e he c hc
          rcases orphAppend_mem _ _ _ _ he c hc with ⟨e0, he0, hc0⟩ | hca
          · exact h1 e0 he0 c hc0
          · rw [hca]
            exact vcUpdate_dominates_self s.vclock a.id.client_id a.id.clock
        · rfl
    · -- insert path: the drain and the dead auto-GC tail
      split
      · constructor
        · refine (drain_gc_orphExact drain hd _ _ ?_).1
          exact h1
        · refine (drain_gc_orphExact drain hd _ _ ?_).2
          exact h1
      · constructor
        · refine (drain_gc_orphExact drain hd _ _ ?_).1
          exact h1
        · refine (drain_gc_orphExact drain hd _ _ ?_).2
          exact h1

/-- `remoteMergeF` updates the vector clock by exactly one `update` and
keeps orphan domination: every drained orphan is already dominated, so
its re-merge leaves the clock unchanged. -/
theorem mergeF_orphExact : ∀ (fuel : Nat) (s : Sequence) (a : Atom),
    orphDom s →
    orphDom (remoteMergeF fuel s a) ∧
    (remoteMergeF fuel s a).vclock
      = vcUpdate s.vclock a.id.client_id a.id.clock := by
  intro fuel
  induction fuel with
  | zero => exact remoteMergeCore_orphExact _ (fun _ _ h => ⟨h, rfl⟩)
  | succ fuel ih =>
    refine remoteMergeCore_orphExact _ ?_
    intro s1 i h1
    simp only [checkPendingOrphansWith]
    split
    · exact ⟨h1, rfl⟩
    · rename_i children hfind
      have hdom3 : orphDom { s1 with
          pending_orphans := orphErase s1.pending_orphans i,
          total_orphan_count := s1.total_orphan_count - children.length } := by
        intro e he c hc
        exact h1 e (orphErase_mem _ _ _ he) c hc
      have hch : ∀ c ∈ children,
          vcDominates c.id.client_id c.id.clock s1.vclock := by
        intro c hc
        obtain ⟨e0, he0, hch0⟩ := orphFind_mem _ _ _ hfind
        exact h1 e0 he0 c (by rw [hch0]; exact hc)
      have hfold : ∀ (l : List Atom),
          (∀ c ∈ l, vcDominates c.id.client_id c.id.clock s1.vclock) →
          ∀ st : Sequence, orphDom st → st.vclock = s1.vclock →
          orphDom (l.foldl (remoteMergeF fuel) st) ∧
          (l.foldl (remoteMergeF fuel) st).vclock = s1.vclock := by
        intro l
        induction l with
        | nil => exact fun _ st h hv => ⟨h, hv⟩
        | cons c cs ihl =>
          intro hl st hst hv
          have hm := ih st c hst
          have hveq : (remoteMergeF fuel st c).vclock = s1.vclock := by
            rw [hm.2, hv]
            exact vcUpdate_dominated_id s1.vclock _ _ (hl c (by simp))
          exact ihl (fun c2 hc2 => hl c2 (by simp [hc2])) _ hm.1 hveq
      exact hfold children hch _ hdom3 rfl

/-- `applyDelta` over all-live atoms folds one `update` per atom into
the receiver's vector clock and keeps orphan domination. -/
theorem applyDelta_orphExact : ∀ (l : List Atom) (st : Sequence),
    orphDom st → (∀ a ∈ l, a.is_deleted = false) →
    orphDom (applyDelta st l) ∧
    (applyDelta st l).vclock
      = l.foldl (fun v a => vcUpdate v a.id.client_id a.id.clock)
          st.vclock := by
  intro l
  induction l with
  | nil => exact fun st h _ => ⟨h, rfl⟩
  | cons c cs ih =>
    intro st h hl
    have hc : c.is_deleted = false := hl c (by simp)
    have hred : applyDelta st (c :: cs) = applyDelta (remoteMerge st c) cs := by
      simp only [applyDelta, List.foldl_cons]
      rw [if_neg (by simp [hc])]
    have hme := mergeF_orphExact (orphanSize st + 1) st c h
    have hstep := ih (remoteMerge st c) hme.1 (fun a ha => hl a (by simp [ha]))
    have hv : (remoteMerge st c).vclock
        = vcUpdate st.vclock c.id.client_id c.id.clock := hme.2
    rw [hred]
    refine ⟨hstep.1, ?_⟩
    rw [hstep.2, hv]
    rfl

/-- C2 amended: the delta brings the receiver's vector clock pointwise
to `max(receiver, sender-atom clocks)` — only `remote_merge` updates it,
`remote_delete` does not. It reaches the sender's vector clock exactly
when the sender's clock is that max, which the hypotheses state over the
finitely many relevant keys; the sender's atoms must all be live
(tombstoned delta atoms go through `remote_delete` and are lost to the
clock), and the receiver's buffered orphans must already be covered by
its clock (true in every reachable state, since the merge updates the
clock before buffering). -/
theorem C2_delta_vc_amended (S R : Sequence)
    (h1 : ∀ a ∈ S.atoms, a.is_deleted = false)
    (h2 : ∀ p ∈ c2Keys S R,
      vcGet S.vclock p = max (vcGet R.vclock p) (maxClockAt S.atoms p))
    (h4 : orphDom R) :
    ∀ p, vcGet (applyDelta R (getDelta S R.vclock)).vclock p
      = vcGet S.vclock p := by
  have h2all : ∀ p, vcGet S.vclock p
      = max (vcGet R.vclock p) (maxClockAt S.atoms p) := by
    intro p
    by_cases hp : p ∈ c2Keys S R
    · exact h2 p hp
    · simp only [c2Keys, List.mem_append] at hp
      push_neg at hp
      rw [vcGet_zero_of_not_key S.vclock p hp.1.1,
        vcGet_zero_of_not_key R.vclock p hp.1.2,
        maxClockAt_zero_of_not_key S.atoms p hp.2]
      rfl
  have hlive : ∀ a ∈ getDelta S R.vclock, a.is_deleted = false := by
    intro a ha
    simp only [getDelta] at ha
    exact h1 a (List.mem_filter.mp ha).1
  have hfold := applyDelta_orphExact (getDelta S R.vclock) R h4 hlive
  intro p
  rw [hfold.2, vcGet_foldUpdate, h2all p]
  have hfil := maxClockAt_getDelta R.vclock p S.atoms
  simp only [getDelta]
  exact hfil

/-- C2 amended witness: peer 1 inserted `A`; a fresh peer 2 applies the
delta and reaches the sender's clock at key 1. -/
theorem C2_delta_vc_amended_witness :
    (∀ a ∈ (runOps 1 [SeqOp.linsert 0 65]).atoms, a.is_deleted = false) ∧
      (∀ p ∈ c2Keys (runOps 1 [SeqOp.linsert 0 65]) (Sequence.init 2),
        vcGet (runOps 1 [SeqOp.linsert 0 65]).vclock p
          = max (vcGet (Sequence.init 2).vclock p)
              (maxClockAt (runOps 1 [SeqOp.linsert 0 65]).atoms p)) ∧
      orphDom (Sequence.init 2) ∧
      vcGet (applyDelta (Sequence.init 2)
          (getDelta (runOps 1 [SeqOp.linsert 0 65])
            (Sequence.init 2).vclock)).vclock 1
        = vcGet (runOps 1 [SeqOp.linsert 0 65]).vclock 1 :=
  ⟨by decide, by decide, by simp [orphDom, Sequence.init],
    (C2_delta_vc_amended (runOps 1 [SeqOp.linsert 0 65]) (Sequence.init 2)
      (by decide) (by decide) (by simp [orphDom, Sequence.init])) 1⟩

end OmniSync
